import Mathlib

/-!
Verification of the MetaMapPlugin RPC layer (an Obsidian plugin exposing a
note-graph over JSON-RPC on WebSocket).

The TypeScript sources are shallowly embedded: JavaScript strings are
modelled as sequences of Unicode scalar values (Lean `String`), with the
JS string operations used by the code (split on a single character, trim,
toLowerCase, slice, indexOf, `\s+` collapsing) re-implemented over
`List Char` so that every definition is executable by the kernel.  The
Obsidian vault (an external collaborator of the code under test) is
modelled as an association list from path to entry (markdown file with
content and mtime, or folder), and the metadata cache as a tag table and
a resolved-link table.  Fallible handlers return `Except String`;
stateful handlers additionally return the updated vault and a log of the
paths they created, in creation order.
-/

/-! ## Character-level string operations (JS semantics) -/

/-- The whitespace characters recognised by JavaScript `trim` /
`trimEnd` / `\s` that can appear in the ASCII range. -/
def jsIsSpace (c : Char) : Bool :=
  c = ' ' || c = '\t' || c = '\n' || c = '\r' || c = '\x0b' || c = '\x0c'

/-- JS `String.prototype.split` with a one-character separator, on the
underlying character list.  `[]` splits to `[[]]`, matching JS
`"".split(sep) = [""]`. -/
def chSplit (sep : Char) : List Char → List (List Char)
  | [] => [[]]
  | c :: cs =>
    let rest := chSplit sep cs
    if c = sep then [] :: rest
    else
      match rest with
      | [] => [[c]]
      | g :: gs => (c :: g) :: gs

/-- JS `Array.prototype.join` with a one-character separator. -/
def chJoin (sep : Char) : List (List Char) → List Char
  | [] => []
  | [g] => g
  | g :: gs => g ++ sep :: chJoin sep gs

/-- JS `String.prototype.split` with a one-character separator. -/
def jsSplit (sep : Char) (s : String) : List String :=
  (chSplit sep s.data).map String.mk

/-- JS `Array.prototype.join` with a one-character separator, over strings. -/
def jsJoin (sep : Char) (ss : List String) : String :=
  ⟨chJoin sep (ss.map String.data)⟩

/-- JS `String.prototype.trim`. -/
def jsTrim (s : String) : String :=
  ⟨((s.data.dropWhile jsIsSpace).reverse.dropWhile jsIsSpace).reverse⟩

/-- JS `String.prototype.trimEnd`. -/
def jsTrimEnd (s : String) : String :=
  ⟨(s.data.reverse.dropWhile jsIsSpace).reverse⟩

/-- JS `String.prototype.toLowerCase`, restricted to the ASCII lowering
performed by `Char.toLower` (the sources only lowercase search queries
and file paths). -/
def jsToLower (s : String) : String :=
  ⟨s.data.map Char.toLower⟩

/-- `s.startsWith(pre)` as a kernel-computable Boolean. -/
def strStartsWith (s pre : String) : Bool :=
  pre.data.isPrefixOf s.data

/-- `s.endsWith(suf)` as a kernel-computable Boolean. -/
def strEndsWith (s suf : String) : Bool :=
  suf.data.reverse.isPrefixOf s.data.reverse

/-- JS `String.prototype.indexOf`: index of the first occurrence of
`ned` in `hay`, or `none` (JS `-1`). -/
def firstIndexOf : List Char → List Char → Option Nat
  | [], ned => if ned.isPrefixOf [] then some 0 else none
  | c :: t, ned =>
    if ned.isPrefixOf (c :: t) then some 0
    else (firstIndexOf t ned).map (· + 1)

/-- Substring containment, via `firstIndexOf`. -/
def strContains (hay ned : String) : Bool :=
  (firstIndexOf hay.data ned.data).isSome

/-- JS `str.replace(/\s+/g, " ")`: collapse every maximal run of
whitespace into a single space.  The Boolean records whether the
previous character was part of a whitespace run. -/
def collapseWsAux : Bool → List Char → List Char
  | _, [] => []
  | inRun, c :: cs =>
    if jsIsSpace c then
      if inRun then collapseWsAux true cs
      else ' ' :: collapseWsAux true cs
    else c :: collapseWsAux false cs

/-- JS `str.replace(/\s+/g, " ")` over strings. -/
def collapseWs (s : String) : String :=
  ⟨collapseWsAux false s.data⟩

/-! ## The vault and metadata cache (Obsidian collaborators)

`App`, `Vault`, `TFile`, `TFolder` and the metadata cache are host
objects of Obsidian, external collaborators of the code under test; they
are modelled here with exactly the operations the RPC handlers use. -/

/-- A vault entry: a regular (markdown) file with content and
modification time, or a folder. -/
inductive VaultEntry where
  | file (content : String) (mtime : Nat)
  | folder
deriving Repr, DecidableEq

/-- The vault: an association list from normalized path to entry.
`lookup` models `Vault.getAbstractFileByPath`. -/
structure Vault where
  entries : List (String × VaultEntry)
deriving Repr, DecidableEq

/-- `Vault.getAbstractFileByPath`. -/
def Vault.lookup (v : Vault) (path : String) : Option VaultEntry :=
  v.entries.lookup path

/-- `Vault.createFolder` (assumed by the code to be called only on
absent paths). -/
def Vault.insertFolder (v : Vault) (path : String) : Vault :=
  ⟨v.entries ++ [(path, .folder)]⟩

/-- `Vault.create`: creates a file, failing when anything already
exists at the path (the host rejects creation over an existing entry). -/
def Vault.create (v : Vault) (path content : String) (now : Nat) :
    Except String Vault :=
  match v.lookup path with
  | some _ => .error ("File already exists: " ++ path)
  | none => .ok ⟨v.entries ++ [(path, .file content now)]⟩

/-- A markdown file as listed by `Vault.getMarkdownFiles`. -/
structure MdFile where
  path : String
  content : String
  mtime : Nat
deriving Repr, DecidableEq

/-- `Vault.getMarkdownFiles`: every file entry whose path ends in
`.md`, in vault order.  `cachedRead` of such a file yields its content. -/
def Vault.getMarkdownFiles (v : Vault) : List MdFile :=
  v.entries.filterMap fun pe =>
    match pe.2 with
    | .file c m => if strEndsWith (jsToLower pe.1) ".md" then some ⟨pe.1, c, m⟩ else none
    | .folder => none

/-- The metadata cache: for each path the raw `cache.tags` entries
(the `tag` fields, possibly with a leading `#`), and `resolvedLinks`
as an association list source path to (target path, link count) list. -/
structure MetadataCache where
  tagsOf : String → List String
  resolvedLinks : List (String × List (String × Nat))

/-- The slice of the Obsidian `App` the handlers use. -/
structure App where
  vault : Vault
  cache : MetadataCache

/-- `TFile.basename`: the last path segment without its extension. -/
def basename (path : String) : String :=
  let name := ((jsSplit '/' path).getLastD path)
  let parts := jsSplit '.' name
  if parts.length ≥ 2 then jsJoin '.' parts.dropLast else name

/-! ## `rpcGraphGetSnapshot` (src/rpc/methods.ts) -/

structure GraphNode where
  id : String
  path : String
  title : String
  mtime : Nat
  tags : List String
deriving Repr, DecidableEq

structure GraphEdge where
  source : String
  target : String
  count : Nat
deriving Repr, DecidableEq

structure GraphSnapshot where
  version : Int
  nodes : List GraphNode
  edges : List GraphEdge
deriving Repr, DecidableEq

/-- `t.tag.startsWith("#") ? t.tag.slice(1) : t.tag`: remove one
leading `#` marker when present. -/
def stripHash (t : String) : String :=
  if strStartsWith t "#" then ⟨t.data.drop 1⟩ else t

/-- One iteration of the tag-collection loop: skip an empty `tag`
field, strip the leading marker, and add to the JS `Set` (first
occurrence kept, later duplicates dropped). -/
def collectStep (acc : List String) (t : String) : List String :=
  if t = "" then acc
  else if stripHash t ∈ acc then acc else acc ++ [stripHash t]

/-- The tag-collection loop shared by `rpcGraphGetSnapshot` and
`rpcNoteGetPreview`. -/
def collectTags (raw : List String) : List String :=
  raw.foldl collectStep []

/-- The node list of a snapshot: one node per markdown file. -/
def buildNodes (app : App) : List GraphNode :=
  app.vault.getMarkdownFiles.map fun f =>
    { id := f.path, path := f.path, title := basename f.path,
      mtime := f.mtime, tags := collectTags (app.cache.tagsOf f.path) }

/-- The edge list of a snapshot: `resolvedLinks` flattened in order. -/
def buildEdges (app : App) : List GraphEdge :=
  app.cache.resolvedLinks.flatMap fun st =>
    st.2.map fun tc => { source := st.1, target := tc.1, count := tc.2 }

/-- The two possible results of `graph.getSnapshot`. -/
inductive SnapshotResult where
  | notChanged (version : Int)
  | full (snap : GraphSnapshot)
deriving Repr, DecidableEq

/-- `rpcGraphGetSnapshot`: `params.sinceVersion` is modelled as an
optional integer (`Number(p.sinceVersion ?? -1)` yields `-1` when the
field is absent).  The function is total: it never fails. -/
def rpcGraphGetSnapshot (sinceVersion? : Option Int) (app : App)
    (graphVersion : Int) : SnapshotResult :=
  let sinceVersion := sinceVersion?.getD (-1)
  if 0 ≤ sinceVersion ∧ graphVersion ≤ sinceVersion then
    .notChanged graphVersion
  else
    .full { version := graphVersion, nodes := buildNodes app, edges := buildEdges app }

/-! ## `rpcNoteGetPreview` (src/rpc/methods.ts) -/

structure NotePreview where
  path : String
  title : String
  mtime : Nat
  tags : List String
  excerpt : String
deriving Repr, DecidableEq

/-- The bounded excerpt: the first 30 lines of the content
(`content.split("\n").slice(0, 30).join("\n")`). -/
def excerptOf (content : String) : String :=
  jsJoin '\n' ((jsSplit '\n' content).take 30)

/-- `rpcNoteGetPreview`: `params.path` is modelled as an optional
string (a non-string `path` field behaves like an absent one, as in
the source's `typeof` check). -/
def rpcNoteGetPreview (path? : Option String) (app : App) :
    Except String NotePreview :=
  let path := path?.getD ""
  if path = "" then .error "Missing params.path"
  else
    match app.vault.lookup path with
    | some (.file content mtime) =>
      .ok { path := path, title := basename path, mtime := mtime,
            tags := collectTags (app.cache.tagsOf path),
            excerpt := excerptOf content }
    | _ => .error ("Not a file: " ++ path)

/-! ## `rpcSearchQuery` (src/rpc/methods.ts) -/

structure SearchResult where
  path : String
  title : String
  snippet : String
deriving Repr, DecidableEq

structure SearchResponse where
  query : String
  results : List SearchResult
deriving Repr, DecidableEq

/-- One file's search step: case-insensitive substring match of the
query, returning the collapsed snippet around the first occurrence
(`Math.max(0, idx - 80)` to `Math.min(content.length, idx + q.length + 80)`). -/
def searchMatch (q content : String) : Option String :=
  match firstIndexOf (jsToLower content).data (jsToLower q).data with
  | none => none
  | some idx =>
    let start := idx - 80
    let stop := min content.data.length (idx + q.data.length + 80)
    some (collapseWs ⟨(content.data.drop start).take (stop - start)⟩)

/-- The scan loop of `rpcSearchQuery`: before each file it stops if
`results.length >= limit`; otherwise it reads the file (recorded in
the read log) and appends a result on a match. -/
def searchScanGo (q : String) (limit : Int) :
    List MdFile → List SearchResult → List String → List SearchResult × List String
  | [], acc, log => (acc, log)
  | f :: fs, acc, log =>
    if (acc.length : Int) ≥ limit then (acc, log)
    else
      match searchMatch q f.content with
      | none => searchScanGo q limit fs acc (log ++ [f.path])
      | some snip =>
        searchScanGo q limit fs (acc ++ [⟨f.path, basename f.path, snip⟩]) (log ++ [f.path])

/-- `rpcSearchQuery`: returns the response together with the read log
(the paths passed to `cachedRead`, in order).  `params.q` and
`params.limit` are modelled as an optional string and an optional
integer; `Math.min(Number(p.limit ?? 50), 200)` becomes
`min (limit?.getD 50) 200`. -/
def rpcSearchQuery (q? : Option String) (limit? : Option Int) (app : App) :
    Except String (SearchResponse × List String) :=
  let q := jsTrim (q?.getD "")
  if q = "" then .error "Missing params.q"
  else
    let limit : Int := min (limit?.getD 50) 200
    let rl := searchScanGo q limit app.vault.getMarkdownFiles [] []
    .ok ({ query := q, results := rl.1 }, rl.2)

/-! ## `rpcNoteCreate` and `ensureFolderPath` (src/rpc/methods.ts) -/

structure CreateNoteResponse where
  path : String
  title : String
  mtime : Nat
  created : Bool
deriving Repr, DecidableEq

/-- The nonempty slash-separated segments of a path, after backslashes
are mapped to slashes. -/
def normSegs (p : String) : List String :=
  ((chSplit '/' (p.data.map fun c => if c = '\\' then '/' else c)).map
      String.mk).filter (· ≠ "")

/-- Obsidian's `normalizePath` (host API): backslashes become slashes,
runs of slashes collapse, and leading/trailing slashes are removed. -/
def normalizePath (p : String) : String :=
  jsJoin '/' (normSegs p)

/-- ``current = current ? `${current}/${segment}` : segment``. -/
def joinSeg (current seg : String) : String :=
  if current = "" then seg else current ++ "/" ++ seg

/-- The loop of `ensureFolderPath`: walk the segments, extending the
accumulated path; create a folder when the path is absent (recorded in
the creation log), continue when a folder exists, and fail when a
non-folder entry occupies a needed segment.  Returns the outcome, the
vault after the folders created so far, and the creation log. -/
def ensureFolderGo (v : Vault) (log : List String) (current : String) :
    List String → Except String Unit × Vault × List String
  | [] => (.ok (), v, log)
  | seg :: rest =>
    let cur := joinSeg current seg
    match v.lookup cur with
    | none => ensureFolderGo (v.insertFolder cur) (log ++ [cur]) cur rest
    | some .folder => ensureFolderGo v log cur rest
    | some (.file _ _) => (.error ("Path segment is not a folder: " ++ cur), v, log)

/-- `ensureFolderPath`. -/
def ensureFolderPath (v : Vault) (folderPath : String) :
    Except String Unit × Vault × List String :=
  ensureFolderGo v [] "" ((jsSplit '/' folderPath).filter (· ≠ ""))

/-- `path.split("/").slice(0, -1).join("/")`. -/
def folderPathOf (path : String) : String :=
  jsJoin '/' (jsSplit '/' path).dropLast

/-- The document written by `note.create`:
``# ${heading}\n\n${body.trimEnd()}\n``. -/
def noteContent (heading body : String) : String :=
  "# " ++ heading ++ "\n\n" ++ jsTrimEnd body ++ "\n"

/-- `rpcNoteCreate`: returns the outcome, the vault after the call
(folders created before a failure persist, as they do in the real
vault), and the log of the paths created, in creation order. -/
def rpcNoteCreate (path? heading? body? : Option String) (v : Vault)
    (now : Nat) : Except String CreateNoteResponse × Vault × List String :=
  let rawPath := jsTrim (path?.getD "")
  let heading := jsTrim (heading?.getD "")
  let body := body?.getD ""
  if rawPath = "" then (.error "Missing params.path", v, [])
  else if heading = "" then (.error "Missing params.heading", v, [])
  else
    let path := normalizePath rawPath
    if ¬ strEndsWith (jsToLower path) ".md" then
      (.error "params.path must end with .md", v, [])
    else
      match v.lookup path with
      | some (.file _ _) => (.error ("File already exists: " ++ path), v, [])
      | _ =>
        let folderPath := folderPathOf path
        let efl :=
          if folderPath = "" then (.ok (), v, ([] : List String))
          else ensureFolderPath v folderPath
        let v1 := efl.2.1
        let log1 := efl.2.2
        match efl.1 with
        | .error e => (.error e, v1, log1)
        | .ok _ =>
          match v1.create path (noteContent heading body) now with
          | .error e => (.error e, v1, log1)
          | .ok v2 =>
            (.ok { path := path, title := basename path, mtime := now, created := true },
             v2, log1 ++ [path])

/-! ## The message codec: `rawToText` (src/utils/ws.ts) and UTF-8 -/

/-- UTF-8 encoding of one Unicode scalar value. -/
def utf8EncodeChar (n : Nat) : List Nat :=
  if n < 0x80 then [n]
  else if n < 0x800 then [0xC0 + n / 0x40, 0x80 + n % 0x40]
  else if n < 0x10000 then
    [0xE0 + n / 0x1000, 0x80 + n / 0x40 % 0x40, 0x80 + n % 0x40]
  else
    [0xF0 + n / 0x40000, 0x80 + n / 0x1000 % 0x40, 0x80 + n / 0x40 % 0x40, 0x80 + n % 0x40]

/-- UTF-8 encoding of a string. -/
def utf8Encode (s : String) : List Nat :=
  (s.data.map fun c => utf8EncodeChar c.toNat).flatten

/-- Is `b` a UTF-8 continuation byte? -/
def utf8Cont (b : Nat) : Bool :=
  0x80 ≤ b ∧ b < 0xC0

/-- The replacement character emitted for malformed input. -/
def replChar : Char := Char.ofNat 0xFFFD

/-- One UTF-8 decoding step, as performed by the Node
`Buffer.toString("utf8")` the codec relies on: given the first byte and
the remaining bytes, produce the decoded character (the replacement
character for malformed input) and the bytes left over. -/
def utf8Step (b : Nat) (rest : List Nat) : Char × List Nat :=
  if b < 0x80 then (Char.ofNat b, rest)
  else if b < 0xC2 then (replChar, rest)
  else if b < 0xE0 then
    match rest with
    | c1 :: r2 =>
      if utf8Cont c1 then (Char.ofNat ((b - 0xC0) * 0x40 + (c1 - 0x80)), r2)
      else (replChar, c1 :: r2)
    | [] => (replChar, [])
  else if b < 0xF0 then
    match rest with
    | c1 :: c2 :: r3 =>
      if utf8Cont c1 ∧ utf8Cont c2 then
        let v := (b - 0xE0) * 0x1000 + (c1 - 0x80) * 0x40 + (c2 - 0x80)
        if 0x800 ≤ v ∧ ¬ (0xD800 ≤ v ∧ v ≤ 0xDFFF) then (Char.ofNat v, r3)
        else (replChar, r3)
      else (replChar, c1 :: c2 :: r3)
    | _ => (replChar, [])
  else if b < 0xF5 then
    match rest with
    | c1 :: c2 :: c3 :: r4 =>
      if utf8Cont c1 ∧ utf8Cont c2 ∧ utf8Cont c3 then
        let v := (b - 0xF0) * 0x40000 + (c1 - 0x80) * 0x1000 +
                 (c2 - 0x80) * 0x40 + (c3 - 0x80)
        if 0x10000 ≤ v ∧ v < 0x110000 then (Char.ofNat v, r4)
        else (replChar, r4)
      else (replChar, c1 :: c2 :: c3 :: r4)
    | _ => (replChar, [])
  else (replChar, rest)

/-- The leftover bytes of a step never outnumber the input tail. -/
theorem utf8Step_tail_le (b : Nat) (rest : List Nat) :
    (utf8Step b rest).2.length ≤ rest.length := by
  rw [utf8Step.eq_def]
  repeat' split
  all_goals try simp_all
  all_goals try (repeat' split)
  all_goals try simp_all
  all_goals omega

/-- UTF-8 decoding of a byte sequence: step until the input is
exhausted.  Decoding is total: it never fails. -/
def utf8DecodeGo : List Nat → List Char
  | [] => []
  | b :: rest => (utf8Step b rest).1 :: utf8DecodeGo (utf8Step b rest).2
termination_by l => l.length
decreasing_by
  have := utf8Step_tail_le b rest
  simp only [List.length_cons]
  omega

/-- UTF-8 decoding to a string. -/
def utf8Decode (bs : List Nat) : String :=
  ⟨utf8DecodeGo bs⟩

/-- A raw `ws` transport frame (`RawData`): a text frame, a single
`Buffer`, an `ArrayBuffer`, an array of `Buffer` fragments, or any
other (unrecognised) value. -/
inductive RawFrame where
  | text (s : String)
  | buffer (bytes : List Nat)
  | arrayBuffer (bytes : List Nat)
  | fragments (parts : List (List Nat))
  | other
deriving Repr

/-- `rawToText` (src/utils/ws.ts): a string is returned unchanged, a
`Buffer` and an `ArrayBuffer` are decoded as UTF-8, an array of
fragments is concatenated (`Buffer.concat`) and decoded, and anything
else yields `""`.  The function is total: it never raises. -/
def rawToText : RawFrame → String
  | .text s => s
  | .buffer bytes => utf8Decode bytes
  | .arrayBuffer bytes => utf8Decode bytes
  | .fragments parts => utf8Decode parts.flatten
  | .other => ""

/-! ## JSON values and the envelope check (src/rpc/wsRpcServer.ts) -/

/-- JSON values (numbers restricted to integers, which is all the
protocol's claims need). -/
inductive Json where
  | null
  | bool (b : Bool)
  | num (n : Int)
  | str (s : String)
  | arr (elems : List Json)
  | obj (fields : List (String × Json))
deriving Repr

/-- Field lookup on a JSON object; `none` on non-objects. -/
def Json.getField : Json → String → Option Json
  | .obj fields, k => fields.lookup k
  | _, _ => none

/-- Does the payload carry `jsonrpc: "2.0"`? -/
def hasJsonrpc20 (j : Json) : Bool :=
  match j.getField "jsonrpc" with
  | some (.str s) => s = "2.0"
  | _ => false

/-- Modelled from the spec: the envelope classification performed by
json-rpc-2.0's `receiveAndSend` (the library is a dependency, not under
src/).  A payload is a request/notification shape when it carries the
`jsonrpc: "2.0"` marker and a string `method`; it is a response shape
when it carries the marker, an `id`, and a `result` or `error` member.
Anything else is invalid and is dropped without reply (the plugin's
`.catch(() => {})` swallows the library's rejection). -/
def isRequestShape (j : Json) : Bool :=
  hasJsonrpc20 j &&
    match j.getField "method" with
    | some (.str _) => true
    | _ => false

/-- Modelled from the spec: the response shape of §4.2. -/
def isResponseShape (j : Json) : Bool :=
  hasJsonrpc20 j && (j.getField "id").isSome &&
    ((j.getField "result").isSome || (j.getField "error").isSome)

/-- Modelled from the spec: `serverAndClient.receiveAndSend` dispatches
a valid request or response payload (the outbound frames it produces
are abstracted by `dispatch`) and rejects anything else, which the
caller swallows, producing no outbound traffic. -/
def receiveAndSend (dispatch : Json → List String) (payload : Json) :
    List String :=
  if isRequestShape payload || isResponseShape payload then dispatch payload
  else []

/-- The `ws.on("message")` handler of `WsRpcServer.start`: decode the
frame, drop it when the text is empty, drop it when it does not parse
as JSON (`parse` models `JSON.parse`, `none` meaning a thrown
`SyntaxError`), and otherwise hand it to `receiveAndSend`.  The result
is the list of frames sent back on the socket. -/
def handleSocketMessage (dispatch : Json → List String)
    (parse : String → Option Json) (raw : RawFrame) : List String :=
  let text := rawToText raw
  if text = "" then []
  else
    match parse text with
    | none => []
    | some payload => receiveAndSend dispatch payload

/-! ## The per-connection session and its pending-outbound table -/

/-- The state of one slot of a session's pending-outbound table. -/
inductive PendingSlot where
  | pending
  | settledOk
  | settledErr (msg : String)
deriving Repr, DecidableEq

/-- Modelled from the spec: the per-connection session's
pending-outbound table (owned by json-rpc-2.0's `JSONRPCClient`, a
dependency not under src/), keyed by request id, each id unique among
the session's own pending requests. -/
structure RpcSession where
  pendings : List (Nat × PendingSlot)
deriving Repr, DecidableEq

/-- The error message built by the `ws.on("close")` handler:
``Connection is closed (${code}${reasonText ? `: ${reasonText}` : ""}).``. -/
def closeMessage (code : Nat) (reasonText : String) : String :=
  "Connection is closed (" ++ toString code ++
    (if reasonText = "" then "" else ": " ++ reasonText) ++ ")."

/-- Modelled from the spec: `rejectAllPendingRequests` (json-rpc-2.0,
a dependency not under src/) rejects every still-pending outbound
request with the given message and leaves settled entries untouched.
Returns the new session and the list of rejection events
(id, message), one per promise rejection performed. -/
def rejectAllPendingRequests (msg : String) (s : RpcSession) :
    RpcSession × List (Nat × String) :=
  (⟨s.pendings.map fun e =>
      match e.2 with
      | .pending => (e.1, .settledErr msg)
      | _ => e⟩,
   s.pendings.filterMap fun e =>
      match e.2 with
      | .pending => some (e.1, msg)
      | _ => none)

/-- The `ws.on("close")` handler of `WsRpcServer.start`, restricted to
the session it drains: every pending outbound request is rejected with
the close message. -/
def onSocketClose (code : Nat) (reasonText : String) (s : RpcSession) :
    RpcSession × List (Nat × String) :=
  rejectAllPendingRequests (closeMessage code reasonText) s

/-! ## The server supervisor and the change-version oracle
(src/rpc/wsRpcServer.ts, src/main.ts) -/

/-- One notification emitted to a session: the target session, the
method name, and the `{version}` payload. -/
structure SentNotif where
  target : Nat
  method : String
  version : Int
deriving Repr, DecidableEq

/-- `WsRpcServer.notifyAll`: one notification per currently-live
session, in iteration order of the client map. -/
def notifyAll (sessions : List Nat) (method : String) (version : Int) :
    List SentNotif :=
  sessions.map fun s => ⟨s, method, version⟩

/-- The plugin state relevant to the change-version oracle: the
process-wide `graphVersion` counter and the live-session set of the
RPC server (the keys of its client map, hence pairwise distinct). -/
structure PluginState where
  graphVersion : Int
  sessions : List Nat
deriving Repr, DecidableEq

/-- `VrRpcServerPlugin.bumpGraphVersion` (src/main.ts): invoked on
every vault `modify` / `create` / `delete` / `rename` event; increments
`graphVersion` and broadcasts one `graph.changed` notification carrying
the new version to every live session. -/
def bumpGraphVersion (st : PluginState) : PluginState × List SentNotif :=
  let v := st.graphVersion + 1
  ({ st with graphVersion := v }, notifyAll st.sessions "graph.changed" v)

/-- The `wss.on("connection")` handler of `WsRpcServer.start`: the new
session is added to the client map and immediately receives a `hello`
notification carrying the current graph version. -/
def onConnect (st : PluginState) (newSession : Nat) :
    PluginState × List SentNotif :=
  ({ st with sessions := st.sessions ++ [newSession] },
   [⟨newSession, "hello", st.graphVersion⟩])

/-- The supervisor state of `WsRpcServer`: the optional listening
socket (`this.wss`) and the client map. -/
structure WsServerState where
  wss : Option Nat
  clients : List (Nat × RpcSession)
deriving Repr, DecidableEq

/-- `WsRpcServer.start`: a no-op while a listening socket exists
(`if (this.wss) return`), otherwise it creates one.  The Boolean
reports whether a new listening socket was created. -/
def WsRpcServer.start (fresh : Nat) (st : WsServerState) :
    WsServerState × Bool :=
  if st.wss.isSome then (st, false)
  else ({ st with wss := some fresh }, true)

/-! ## The method registry (src/rpc/methods.ts `registerRpcMethods`) -/

/-- The per-request context a handler receives: the app, the value of
`getGraphVersion()`, and the clock used for created-file mtimes. -/
structure RpcCtx where
  app : App
  graphVersion : Int
  now : Nat

/-- The params object, modelled as the optional typed fields the
handlers read (`isRecord(params) ? params : {}` makes a non-record
params behave as all-absent). -/
structure RpcInput where
  sinceVersion : Option Int := none
  path : Option String := none
  heading : Option String := none
  body : Option String := none
  q : Option String := none
  limit : Option Int := none

/-- The union of the handlers' results. -/
inductive RpcOutcome where
  | snapshot (r : SnapshotResult)
  | preview (r : Except String NotePreview)
  | search (r : Except String (SearchResponse × List String))
  | create (r : Except String CreateNoteResponse × Vault × List String)

/-- A registered handler. -/
def MethodHandler : Type := RpcInput → RpcCtx → RpcOutcome

/-- `server.addMethod(name, method)`: json-rpc-2.0 stores handlers in
a dictionary, so a later registration under the same name overwrites an
earlier one; the registration list keeps them in order and lookup takes
the last. -/
def addMethod (reg : List (String × MethodHandler)) (name : String)
    (h : MethodHandler) : List (String × MethodHandler) :=
  reg ++ [(name, h)]

/-- `registerRpcMethods`: the five registrations performed at session
construction, in source order (`note.create` and its alias `createNote`
wrap the same `rpcNoteCreate`). -/
def registerRpcMethods : List (String × MethodHandler) :=
  addMethod
    (addMethod
      (addMethod
        (addMethod
          (addMethod [] "graph.getSnapshot" fun i c =>
            .snapshot (rpcGraphGetSnapshot i.sinceVersion c.app c.graphVersion))
          "note.getPreview" fun i c => .preview (rpcNoteGetPreview i.path c.app))
        "search.query" fun i c => .search (rpcSearchQuery i.q i.limit c.app))
      "note.create" fun i c =>
        .create (rpcNoteCreate i.path i.heading i.body c.app.vault c.now))
    "createNote" fun i c =>
      .create (rpcNoteCreate i.path i.heading i.body c.app.vault c.now)

/-- Dictionary lookup: the last registration under a name wins. -/
def getMethod (name : String) : Option MethodHandler :=
  registerRpcMethods.reverse.lookup name

/-- Dispatch a method call through the registry. -/
def dispatchMethod (name : String) (i : RpcInput) (c : RpcCtx) :
    Option RpcOutcome :=
  (getMethod name).map fun h => h i c

/-! ## Claim theorems -/

/-- C1: `graph.getSnapshot` returns `{version, changed:false}` exactly
when a `sinceVersion` `V ≥ 0` with `V ≥` the current change version is
supplied; otherwise it returns the full snapshot, whose `version` is
the current change version and whose nodes and edges are built from the
vault.  Totality of `rpcGraphGetSnapshot` is the never-fails part. -/
theorem graphGetSnapshot_spec (sv? : Option Int) (app : App) (gv : Int) :
    (rpcGraphGetSnapshot sv? app gv = .notChanged gv ↔
      ∃ V, sv? = some V ∧ 0 ≤ V ∧ gv ≤ V)
    ∧ ((¬ ∃ V, sv? = some V ∧ 0 ≤ V ∧ gv ≤ V) →
      rpcGraphGetSnapshot sv? app gv =
        .full { version := gv, nodes := buildNodes app, edges := buildEdges app }) := by
  have hcond : (0 ≤ sv?.getD (-1) ∧ gv ≤ sv?.getD (-1)) ↔
      ∃ V, sv? = some V ∧ 0 ≤ V ∧ gv ≤ V := by
    cases sv? with
    | none => simp [Option.getD]
    | some V => simp [Option.getD]
  constructor
  · constructor
    · intro h
      by_cases hc : 0 ≤ sv?.getD (-1) ∧ gv ≤ sv?.getD (-1)
      · exact hcond.mp hc
      · simp only [rpcGraphGetSnapshot, if_neg hc] at h
        exact absurd h (by simp)
    · intro hex
      simp only [rpcGraphGetSnapshot, if_pos (hcond.mpr hex)]
  · intro hex
    simp only [rpcGraphGetSnapshot, if_neg (fun hc => hex (hcond.mp hc))]

/-- C1 witness: a concrete vault, a supplied `sinceVersion` below the
current version, hence a full snapshot. -/
theorem graphGetSnapshot_spec_witness :
    rpcGraphGetSnapshot (some 1) ⟨⟨[("a.md", .file "x" 4)]⟩, ⟨fun _ => ["#t"], []⟩⟩ 3 =
      .full { version := 3,
              nodes := buildNodes ⟨⟨[("a.md", .file "x" 4)]⟩, ⟨fun _ => ["#t"], []⟩⟩,
              edges := buildEdges ⟨⟨[("a.md", .file "x" 4)]⟩, ⟨fun _ => ["#t"], []⟩⟩ } :=
  (graphGetSnapshot_spec (some 1) ⟨⟨[("a.md", .file "x" 4)]⟩, ⟨fun _ => ["#t"], []⟩⟩ 3).2
    (by rintro ⟨V, hV, h0, h3⟩; cases hV; omega)

/-- C8: the alias method name `createNote` is bound to the same handler
as `note.create`: the registry resolves both names, and dispatching
either produces the same result or error for every params object and
context. -/
theorem createNote_alias_spec (i : RpcInput) (c : RpcCtx) :
    dispatchMethod "createNote" i c = dispatchMethod "note.create" i c
    ∧ (dispatchMethod "createNote" i c).isSome :=
  ⟨rfl, rfl⟩

/-- C10: calling `start()` while a listening socket exists is a no-op:
no second listening socket is created and the whole state — including
the live-session map and every session in it — is unchanged. -/
theorem start_idempotent_spec (st : WsServerState) (fresh : Nat)
    (h : st.wss.isSome) : WsRpcServer.start fresh st = (st, false) := by
  simp only [WsRpcServer.start, if_pos h]

/-- C10 witness: starting an already-listening server with one live
client changes nothing. -/
theorem start_idempotent_spec_witness :
    WsRpcServer.start 9 ⟨some 1, [(7, ⟨[(0, .pending)]⟩)]⟩ =
      (⟨some 1, [(7, ⟨[(0, .pending)]⟩)]⟩, false) :=
  start_idempotent_spec ⟨some 1, [(7, ⟨[(0, .pending)]⟩)]⟩ 9 (by decide)

/-- C7: a frame whose decoded text is empty, a frame that does not
parse as JSON, and a well-formed JSON frame without the
`jsonrpc: "2.0"` marker all produce no outbound traffic. -/
theorem malformed_frame_spec (dispatch : Json → List String)
    (parse : String → Option Json) (raw : RawFrame) :
    (rawToText raw = "" → handleSocketMessage dispatch parse raw = [])
    ∧ (parse (rawToText raw) = none → handleSocketMessage dispatch parse raw = [])
    ∧ (∀ p, parse (rawToText raw) = some p → hasJsonrpc20 p = false →
        handleSocketMessage dispatch parse raw = []) := by
  refine ⟨fun h => ?_, fun h => ?_, fun p hp hj => ?_⟩
  · simp [handleSocketMessage, h]
  · by_cases he : rawToText raw = ""
    · simp [handleSocketMessage, he]
    · simp [handleSocketMessage, if_neg he, h]
  · by_cases he : rawToText raw = ""
    · simp [handleSocketMessage, he]
    · simp [handleSocketMessage, if_neg he, hp, receiveAndSend,
        isRequestShape, isResponseShape, hj]

/-- C7 witness: a parser that yields a JSON object without the
`jsonrpc` member; the handler sends nothing. -/
theorem malformed_frame_spec_witness :
    handleSocketMessage (fun _ => ["reply"]) (fun _ => some (.obj [("id", .num 1)]))
      (.text "x") = [] :=
  (malformed_frame_spec (fun _ => ["reply"]) (fun _ => some (.obj [("id", .num 1)]))
      (.text "x")).2.2 (.obj [("id", .num 1)]) rfl rfl


/-- Helper: `List.isPrefixOf` holds for a list and itself with any
suffix appended. -/
theorem isPrefixOf_append_self (l t : List Char) :
    l.isPrefixOf (l ++ t) = true := by
  induction l with
  | nil => simp [List.isPrefixOf]
  | cons c cs ih => simp [List.isPrefixOf, ih]

/-- Helper: a substring occurrence in the middle of a concatenation is
found by `firstIndexOf`. -/
theorem firstIndexOf_append_isSome (a b c : List Char) :
    (firstIndexOf (a ++ b ++ c) b).isSome = true := by
  induction a with
  | nil =>
    cases hb : b ++ c with
    | nil => simp_all [firstIndexOf, isPrefixOf_append_self]
    | cons x t =>
      simp only [List.nil_append, hb, firstIndexOf]
      rw [← hb, isPrefixOf_append_self]
      simp
  | cons x xs ih =>
    simp only [List.cons_append, firstIndexOf, List.append_eq]
    by_cases h : b.isPrefixOf (x :: (xs ++ b ++ c)) = true
    · rw [if_pos h]
      rfl
    · rw [if_neg h]
      simpa using ih

/-- Helper: `strContains (a ++ b ++ c) b` always holds. -/
theorem strContains_middle (a b c : String) :
    strContains (a ++ b ++ c) b = true := by
  simpa [strContains, String.data_append] using
    firstIndexOf_append_isSome a.data b.data c.data

/-- Helper: the rejection events of `rejectAllPendingRequests` are the
pending entries, each paired with the message. -/
theorem rejectAll_events_eq (msg : String) (s : RpcSession) :
    (rejectAllPendingRequests msg s).2 =
      (s.pendings.filter fun e => e.2 = .pending).map fun e => (e.1, msg) := by
  show (s.pendings.filterMap _) = _
  induction s.pendings with
  | nil => rfl
  | cons e rest ih =>
    cases e with
    | mk id st =>
      cases st <;> simp_all [List.filterMap_cons]

/-- Helper: a pending id occurs exactly once among the rejection
events when the table's ids are pairwise distinct. -/
theorem rejectAll_count_one (msg : String) (pendings : List (Nat × PendingSlot))
    (hnd : (pendings.map Prod.fst).Nodup) (id : Nat)
    (hmem : (id, PendingSlot.pending) ∈ pendings) :
    ((pendings.filter fun e => e.2 = .pending).map fun e => (e.1, msg)).count
      (id, msg) = 1 := by
  induction pendings with
  | nil => simp at hmem
  | cons e rest ih =>
    obtain ⟨k, st⟩ := e
    simp only [List.map_cons, List.nodup_cons] at hnd
    rcases List.mem_cons.mp hmem with h | h
    · have hk : id = k := congrArg Prod.fst h
      have hst : PendingSlot.pending = st := congrArg Prod.snd h
      subst hk
      have hzero : ((rest.filter fun e => e.2 = PendingSlot.pending).map
          fun e => (e.1, msg)).count (id, msg) = 0 := by
        rw [List.count_eq_zero]
        intro hc
        rcases List.mem_map.mp hc with ⟨e', he', heq⟩
        have he1 : e'.1 = id := congrArg Prod.fst heq
        exact hnd.1 (List.mem_map.mpr ⟨e', List.mem_of_mem_filter he', he1⟩)
      rw [List.filter_cons_of_pos (by simp [← hst]), List.map_cons, List.count_cons]
      simp [hzero]
    · have hk : k ≠ id := by
        intro hkk
        exact hnd.1 (List.mem_map.mpr ⟨(id, PendingSlot.pending), h, by simp [hkk]⟩)
      have hrec := ih hnd.2 h
      by_cases hst : st = PendingSlot.pending
      · subst hst
        rw [List.filter_cons_of_pos (by simp), List.map_cons, List.count_cons, hrec]
        simp [hk]
      · rw [List.filter_cons_of_neg (by simpa using hst)]
        exact hrec

/-- C4: when a socket closes with N outbound calls pending, all N are
rejected exactly once — one rejection event per pending id, settled
entries untouched, no entry left pending afterwards — and the
rejection message embeds the close code and (when nonempty) the close
reason. -/
theorem closeAndDrain_spec (code : Nat) (reason : String) (s : RpcSession)
    (hnd : (s.pendings.map Prod.fst).Nodup) :
    ((onSocketClose code reason s).2.length =
      (s.pendings.filter fun e => e.2 = .pending).length)
    ∧ (∀ id, (id, PendingSlot.pending) ∈ s.pendings →
        (onSocketClose code reason s).2.count (id, closeMessage code reason) = 1)
    ∧ (∀ e ∈ (onSocketClose code reason s).1.pendings, e.2 ≠ PendingSlot.pending)
    ∧ (∀ ev ∈ (onSocketClose code reason s).2, ev.2 = closeMessage code reason)
    ∧ strContains (closeMessage code reason) (toString code) = true
    ∧ (reason ≠ "" → strContains (closeMessage code reason) reason = true) := by
  refine ⟨?_, ?_, ?_, ?_, ?_, ?_⟩
  · rw [onSocketClose, rejectAll_events_eq]
    simp
  · intro id hmem
    rw [onSocketClose, rejectAll_events_eq]
    exact rejectAll_count_one _ s.pendings hnd id hmem
  · intro e he
    simp only [onSocketClose, rejectAllPendingRequests, List.mem_map] at he
    rcases he with ⟨e', _, heq⟩
    subst heq
    obtain ⟨k, st⟩ := e'
    cases st <;> simp
  · intro ev hev
    rw [onSocketClose, rejectAll_events_eq] at hev
    rcases List.mem_map.mp hev with ⟨e', _, heq⟩
    simpa using congrArg Prod.snd heq.symm
  · have hsplit : closeMessage code reason =
        "Connection is closed (" ++ toString code ++
          ((if reason = "" then "" else ": " ++ reason) ++ ").") := by
      rw [closeMessage, String.append_assoc]
    rw [hsplit]
    exact strContains_middle _ _ _
  · intro hne
    have hsplit : closeMessage code reason =
        ("Connection is closed (" ++ toString code ++ ": ") ++ reason ++ ")." := by
      rw [closeMessage, if_neg hne]
      simp [String.append_assoc]
    rw [hsplit]
    exact strContains_middle _ _ _

/-- C4 witness: a session with two pending and one settled request,
closed with code 1006 and reason "bye". -/
theorem closeAndDrain_spec_witness :
    ((onSocketClose 1006 "bye" ⟨[(1, .pending), (2, .settledOk), (3, .pending)]⟩).2.length =
      (([(1, .pending), (2, .settledOk), (3, .pending)] :
        List (Nat × PendingSlot)).filter fun e => e.2 = .pending).length)
    ∧ (∀ id, (id, PendingSlot.pending) ∈
        ([(1, .pending), (2, .settledOk), (3, .pending)] : List (Nat × PendingSlot)) →
        (onSocketClose 1006 "bye" ⟨[(1, .pending), (2, .settledOk), (3, .pending)]⟩).2.count
          (id, closeMessage 1006 "bye") = 1)
    ∧ (∀ e ∈ (onSocketClose 1006 "bye"
          ⟨[(1, .pending), (2, .settledOk), (3, .pending)]⟩).1.pendings,
        e.2 ≠ PendingSlot.pending)
    ∧ (∀ ev ∈ (onSocketClose 1006 "bye"
          ⟨[(1, .pending), (2, .settledOk), (3, .pending)]⟩).2,
        ev.2 = closeMessage 1006 "bye")
    ∧ strContains (closeMessage 1006 "bye") (toString 1006) = true
    ∧ ("bye" ≠ "" → strContains (closeMessage 1006 "bye") "bye" = true) :=
  closeAndDrain_spec 1006 "bye" ⟨[(1, .pending), (2, .settledOk), (3, .pending)]⟩
    (by decide)

/-- C5: a domain mutation increments the change version by exactly 1
and emits exactly one `graph.changed` notification carrying the new
version to each currently-live session (and nothing else); a session
that connects after the bump receives the new version in its `hello`
notification. -/
theorem bumpGraphVersion_spec (st : PluginState) (late : Nat)
    (hnd : st.sessions.Nodup) :
    (bumpGraphVersion st).1.graphVersion = st.graphVersion + 1
    ∧ (∀ s ∈ st.sessions,
        (bumpGraphVersion st).2.count ⟨s, "graph.changed", st.graphVersion + 1⟩ = 1)
    ∧ (∀ n ∈ (bumpGraphVersion st).2,
        n.method = "graph.changed" ∧ n.version = st.graphVersion + 1 ∧
          n.target ∈ st.sessions)
    ∧ (onConnect (bumpGraphVersion st).1 late).2 =
        [⟨late, "hello", st.graphVersion + 1⟩] := by
  refine ⟨rfl, ?_, ?_, rfl⟩
  · intro s hs
    have hinj : Function.Injective
        (fun s => (⟨s, "graph.changed", st.graphVersion + 1⟩ : SentNotif)) := by
      intro a b hab
      simpa using congrArg SentNotif.target hab
    calc (bumpGraphVersion st).2.count ⟨s, "graph.changed", st.graphVersion + 1⟩
        = st.sessions.count s :=
          List.count_map_of_injective st.sessions _ hinj s
      _ = 1 := List.count_eq_one_of_mem hnd hs
  · intro n hn
    rcases List.mem_map.mp hn with ⟨s, hs, rfl⟩
    exact ⟨rfl, rfl, hs⟩

/-- C5 witness: two live sessions at version 4; a bump notifies both
with version 5 and a later connection is greeted with version 5. -/
theorem bumpGraphVersion_spec_witness :
    (bumpGraphVersion ⟨4, [10, 11]⟩).1.graphVersion = 4 + 1
    ∧ (∀ s ∈ [10, 11],
        (bumpGraphVersion ⟨4, [10, 11]⟩).2.count ⟨s, "graph.changed", 4 + 1⟩ = 1)
    ∧ (∀ n ∈ (bumpGraphVersion ⟨4, [10, 11]⟩).2,
        n.method = "graph.changed" ∧ n.version = 4 + 1 ∧ n.target ∈ [10, 11])
    ∧ (onConnect (bumpGraphVersion ⟨4, [10, 11]⟩).1 12).2 = [⟨12, "hello", 4 + 1⟩] :=
  bumpGraphVersion_spec ⟨4, [10, 11]⟩ 12 (by decide)

/-- Helper: decoding picks up exactly the UTF-8 encoding of any
(surrogate-free, by construction) Lean character. -/
theorem utf8DecodeGo_encodeChar (c : Char) (rest : List Nat) :
    utf8DecodeGo (utf8EncodeChar c.toNat ++ rest) = c :: utf8DecodeGo rest := by
  have hv : c.toNat < 0xD800 ∨ (0xDFFF < c.toNat ∧ c.toNat < 0x110000) := c.valid
  have hofn : Char.ofNat c.toNat = c := Char.ofNat_toNat c
  set n := c.toNat with hn
  by_cases h1 : n < 0x80
  · have henc : utf8EncodeChar n = [n] := by
      rw [utf8EncodeChar, if_pos h1]
    have hstep : utf8Step n rest = (c, rest) := by
      simp only [utf8Step]
      rw [if_pos h1, hofn]
    rw [henc, List.cons_append, List.nil_append, utf8DecodeGo, hstep]
  · by_cases h2 : n < 0x800
    · have henc : utf8EncodeChar n = [0xC0 + n / 0x40, 0x80 + n % 0x40] := by
        rw [utf8EncodeChar, if_neg h1, if_pos h2]
      have e1 : ¬ (0xC0 + n / 0x40 < 0x80) := by omega
      have e2 : ¬ (0xC0 + n / 0x40 < 0xC2) := by omega
      have e3 : 0xC0 + n / 0x40 < 0xE0 := by omega
      have e4 : utf8Cont (0x80 + n % 0x40) = true := by
        simp only [utf8Cont, decide_eq_true_eq]
        omega
      have hstep : utf8Step (0xC0 + n / 0x40) ((0x80 + n % 0x40) :: rest) =
          (c, rest) := by
        simp only [utf8Step]
        rw [if_neg e1, if_neg e2, if_pos e3]
        simp only [e4, if_true]
        rw [show (0xC0 + n / 0x40 - 0xC0) * 0x40 + ((0x80 + n % 0x40) - 0x80) = n by
          omega]
        rw [hofn]
      rw [henc, List.cons_append, List.cons_append, List.nil_append,
        utf8DecodeGo, hstep]
    · by_cases h3 : n < 0x10000
      · have henc : utf8EncodeChar n =
            [0xE0 + n / 0x1000, 0x80 + n / 0x40 % 0x40, 0x80 + n % 0x40] := by
          rw [utf8EncodeChar, if_neg h1, if_neg h2, if_pos h3]
        have e1 : ¬ (0xE0 + n / 0x1000 < 0x80) := by omega
        have e2 : ¬ (0xE0 + n / 0x1000 < 0xC2) := by omega
        have e3 : ¬ (0xE0 + n / 0x1000 < 0xE0) := by omega
        have e4 : 0xE0 + n / 0x1000 < 0xF0 := by omega
        have e5 : utf8Cont (0x80 + n / 0x40 % 0x40) = true := by
          simp only [utf8Cont, decide_eq_true_eq]
          omega
        have e6 : utf8Cont (0x80 + n % 0x40) = true := by
          simp only [utf8Cont, decide_eq_true_eq]
          omega
        have e7 : 0x800 ≤ n ∧ ¬ (0xD800 ≤ n ∧ n ≤ 0xDFFF) := by omega
        have hstep : utf8Step (0xE0 + n / 0x1000)
            ((0x80 + n / 0x40 % 0x40) :: (0x80 + n % 0x40) :: rest) = (c, rest) := by
          simp only [utf8Step]
          rw [if_neg e1, if_neg e2, if_neg e3, if_pos e4]
          simp only [e5, e6, and_self, if_true]
          rw [show (0xE0 + n / 0x1000 - 0xE0) * 0x1000 +
              ((0x80 + n / 0x40 % 0x40) - 0x80) * 0x40 + ((0x80 + n % 0x40) - 0x80) = n by
            omega]
          rw [if_pos e7, hofn]
        rw [henc, List.cons_append, List.cons_append, List.cons_append,
          List.nil_append, utf8DecodeGo, hstep]
      · have h4 : n < 0x110000 := by omega
        have henc : utf8EncodeChar n =
            [0xF0 + n / 0x40000, 0x80 + n / 0x1000 % 0x40,
             0x80 + n / 0x40 % 0x40, 0x80 + n % 0x40] := by
          rw [utf8EncodeChar, if_neg h1, if_neg h2, if_neg h3]
        have e1 : ¬ (0xF0 + n / 0x40000 < 0x80) := by omega
        have e2 : ¬ (0xF0 + n / 0x40000 < 0xC2) := by omega
        have e3 : ¬ (0xF0 + n / 0x40000 < 0xE0) := by omega
        have e4 : ¬ (0xF0 + n / 0x40000 < 0xF0) := by omega
        have e5 : 0xF0 + n / 0x40000 < 0xF5 := by omega
        have ec1 : utf8Cont (0x80 + n / 0x1000 % 0x40) = true := by
          simp only [utf8Cont, decide_eq_true_eq]
          omega
        have ec2 : utf8Cont (0x80 + n / 0x40 % 0x40) = true := by
          simp only [utf8Cont, decide_eq_true_eq]
          omega
        have ec3 : utf8Cont (0x80 + n % 0x40) = true := by
          simp only [utf8Cont, decide_eq_true_eq]
          omega
        have e7 : 0x10000 ≤ n ∧ n < 0x110000 := by omega
        have hstep : utf8Step (0xF0 + n / 0x40000)
            ((0x80 + n / 0x1000 % 0x40) :: (0x80 + n / 0x40 % 0x40) ::
              (0x80 + n % 0x40) :: rest) = (c, rest) := by
          simp only [utf8Step]
          rw [if_neg e1, if_neg e2, if_neg e3, if_neg e4, if_pos e5]
          simp only [ec1, ec2, ec3, and_self, if_true]
          rw [show (0xF0 + n / 0x40000 - 0xF0) * 0x40000 +
              ((0x80 + n / 0x1000 % 0x40) - 0x80) * 0x1000 +
              ((0x80 + n / 0x40 % 0x40) - 0x80) * 0x40 + ((0x80 + n % 0x40) - 0x80) = n by
            omega]
          rw [if_pos e7, hofn]
        rw [henc, List.cons_append, List.cons_append, List.cons_append,
          List.cons_append, List.nil_append, utf8DecodeGo, hstep]

/-- Helper: UTF-8 decoding inverts UTF-8 encoding, character list level. -/
theorem utf8DecodeGo_encode_list (l : List Char) :
    utf8DecodeGo ((l.map fun c => utf8EncodeChar c.toNat).flatten) = l := by
  induction l with
  | nil => simp [utf8DecodeGo]
  | cons c cs ih =>
    rw [List.map_cons, List.flatten_cons, utf8DecodeGo_encodeChar, ih]

/-- C9: the codec maps every raw transport frame to a single string —
a text frame unchanged, a binary buffer and a fixed-size binary buffer
by UTF-8 decoding, a fragment sequence by UTF-8-decoding the in-order
concatenation of the fragments, and an unrecognised frame to the empty
string; decoding inverts UTF-8 encoding, and the codec is a total
function, so it never raises. -/
theorem rawToText_spec :
    (∀ s, rawToText (.text s) = s)
    ∧ (∀ bs, rawToText (.buffer bs) = utf8Decode bs ∧
        rawToText (.arrayBuffer bs) = utf8Decode bs)
    ∧ (∀ ps, rawToText (.fragments ps) = utf8Decode ps.flatten)
    ∧ rawToText .other = ""
    ∧ (∀ s, utf8Decode (utf8Encode s) = s) := by
  refine ⟨fun s => rfl, fun bs => ⟨rfl, rfl⟩, fun ps => rfl, rfl, fun s => ?_⟩
  show String.mk (utf8DecodeGo ((s.data.map fun c => utf8EncodeChar c.toNat).flatten)) = s
  rw [utf8DecodeGo_encode_list]

/-! ## Split/join facts used by the preview and create claims -/

/-- A split is never the empty list of groups. -/
theorem chSplit_ne_nil (sep : Char) (l : List Char) : chSplit sep l ≠ [] := by
  induction l with
  | nil => simp [chSplit]
  | cons c cs ih =>
    rw [chSplit]
    by_cases hc : c = sep
    · simp [hc]
    · rw [if_neg hc]
      cases chSplit sep cs <;> simp

/-- Joining a split returns the original characters. -/
theorem chJoin_chSplit (sep : Char) (l : List Char) :
    chJoin sep (chSplit sep l) = l := by
  induction l with
  | nil => rfl
  | cons c cs ih =>
    rw [chSplit]
    by_cases hc : c = sep
    · subst hc
      rw [if_pos rfl]
      obtain ⟨r1, rs, hrest⟩ := List.exists_cons_of_ne_nil (chSplit_ne_nil c cs)
      rw [hrest] at ih ⊢
      show [] ++ c :: chJoin c (r1 :: rs) = c :: cs
      rw [List.nil_append, ih]
    · rw [if_neg hc]
      cases hrest : chSplit sep cs with
      | nil => exact absurd hrest (chSplit_ne_nil sep cs)
      | cons g gs =>
        rw [hrest] at ih
        cases gs with
        | nil =>
          have ih1 : g = cs := ih
          show c :: g = c :: cs
          rw [ih1]
        | cons g2 gs2 =>
          have ih1 : g ++ sep :: chJoin sep (g2 :: gs2) = cs := ih
          show (c :: g) ++ sep :: chJoin sep (g2 :: gs2) = c :: cs
          rw [List.cons_append, ih1]

/-- No group of a split contains the separator. -/
theorem chSplit_no_sep (sep : Char) (l : List Char) :
    ∀ g ∈ chSplit sep l, sep ∉ g := by
  induction l with
  | nil => simp [chSplit]
  | cons c cs ih =>
    intro g hg
    rw [chSplit] at hg
    by_cases hc : c = sep
    · rw [if_pos hc] at hg
      rcases List.mem_cons.mp hg with h | h
      · simp [h]
      · exact ih g h
    · rw [if_neg hc] at hg
      cases hrest : chSplit sep cs with
      | nil => exact absurd hrest (chSplit_ne_nil sep cs)
      | cons g1 gs =>
        rw [hrest] at hg
        rcases List.mem_cons.mp hg with h | h
        · subst h
          have h1 : sep ∉ g1 := ih g1 (by rw [hrest]; exact List.mem_cons_self g1 gs)
          simp [List.mem_cons]
          exact ⟨fun hsc => hc hsc.symm, h1⟩
        · exact ih g (by rw [hrest]; exact List.mem_cons_of_mem g1 h)
  
/-- Splitting a separator-free list yields a single group. -/
theorem chSplit_of_no_sep (sep : Char) (g : List Char) (h : sep ∉ g) :
    chSplit sep g = [g] := by
  induction g with
  | nil => rfl
  | cons c cs ih =>
    simp only [List.mem_cons, not_or] at h
    rw [chSplit, if_neg (fun hc => h.1 hc.symm), ih h.2]

/-- Splitting recurses over one separator occurrence. -/
theorem chSplit_append_cons (sep : Char) (g t : List Char) (h : sep ∉ g) :
    chSplit sep (g ++ sep :: t) = g :: chSplit sep t := by
  induction g with
  | nil =>
    rw [List.nil_append, chSplit, if_pos rfl]
  | cons c cs ih =>
    simp only [List.mem_cons, not_or] at h
    rw [List.cons_append, chSplit, if_neg (fun hc => h.1 hc.symm), ih h.2]

/-- Splitting a join of separator-free groups returns the groups. -/
theorem chSplit_chJoin (sep : Char) (gs : List (List Char)) (hne : gs ≠ [])
    (h : ∀ g ∈ gs, sep ∉ g) : chSplit sep (chJoin sep gs) = gs := by
  induction gs with
  | nil => exact absurd rfl hne
  | cons g rest ih =>
    cases rest with
    | nil =>
      rw [chJoin, chSplit_of_no_sep sep g (h g (List.mem_cons_self g []))]
    | cons g2 rest2 =>
      have hj : chJoin sep (g :: g2 :: rest2) = g ++ sep :: chJoin sep (g2 :: rest2) := rfl
      rw [hj, chSplit_append_cons sep g _ (h g (List.mem_cons_self g _)),
        ih (by simp) (fun g' hg' => h g' (List.mem_cons_of_mem g hg'))]

/-- String-level split/join inverse for separator-free groups. -/
theorem jsSplit_jsJoin (sep : Char) (ss : List String) (hne : ss ≠ [])
    (h : ∀ s ∈ ss, sep ∉ s.data) : jsSplit sep (jsJoin sep ss) = ss := by
  show (chSplit sep (chJoin sep (ss.map String.data))).map String.mk = ss
  rw [chSplit_chJoin sep _ (by simpa using hne) (by
    intro g hg
    rcases List.mem_map.mp hg with ⟨s, hs, rfl⟩
    exact h s hs)]
  rw [List.map_map]
  have hid : (String.mk ∘ String.data) = id := funext fun s => rfl
  rw [hid, List.map_id]

/-- The tag-collection loop preserves distinctness. -/
theorem foldl_collectStep_nodup (raw : List String) :
    ∀ acc : List String, acc.Nodup → (raw.foldl collectStep acc).Nodup := by
  induction raw with
  | nil => exact fun acc h => h
  | cons t0 rest ih =>
    intro acc hacc
    rw [List.foldl_cons]
    refine ih _ ?_
    rw [collectStep]
    by_cases h0 : t0 = ""
    · rw [if_pos h0]
      exact hacc
    · rw [if_neg h0]
      by_cases hs : stripHash t0 ∈ acc
      · rw [if_pos hs]
        exact hacc
      · rw [if_neg hs]
        simp [List.nodup_append, hacc, hs]

/-- Membership in the collected tags: exactly the nonempty raw tags
with their leading marker removed. -/
theorem foldl_collectStep_mem (raw : List String) :
    ∀ acc t, t ∈ raw.foldl collectStep acc ↔
      t ∈ acc ∨ ∃ t0 ∈ raw, t0 ≠ "" ∧ stripHash t0 = t := by
  induction raw with
  | nil => simp
  | cons t0 rest ih =>
    intro acc t
    rw [List.foldl_cons, ih]
    have hstep : t ∈ collectStep acc t0 ↔
        t ∈ acc ∨ (t0 ≠ "" ∧ stripHash t0 = t) := by
      rw [collectStep]
      by_cases h0 : t0 = ""
      · simp [if_pos h0, h0]
      · rw [if_neg h0]
        by_cases hs : stripHash t0 ∈ acc
        · rw [if_pos hs]
          constructor
          · exact fun h => Or.inl h
          · rintro (h | ⟨-, rfl⟩)
            · exact h
            · exact hs
        · rw [if_neg hs]
          simp only [List.mem_append, List.mem_singleton]
          constructor
          · rintro (h | rfl)
            · exact Or.inl h
            · exact Or.inr ⟨h0, rfl⟩
          · rintro (h | ⟨-, rfl⟩)
            · exact Or.inl h
            · exact Or.inr rfl
    rw [hstep]
    simp only [List.mem_cons]
    constructor
    · rintro ((h | h) | ⟨t1, h1, h2⟩)
      · exact Or.inl h
      · exact Or.inr ⟨t0, Or.inl rfl, h⟩
      · exact Or.inr ⟨t1, Or.inr h1, h2⟩
    · rintro (h | ⟨t1, (rfl | h1), h2⟩)
      · exact Or.inl (Or.inl h)
      · exact Or.inl (Or.inr h2)
      · exact Or.inr ⟨t1, h1, h2⟩

/-- The collected tag list is duplicate-free. -/
theorem collectTags_nodup (raw : List String) : (collectTags raw).Nodup :=
  foldl_collectStep_nodup raw [] List.nodup_nil

/-- Membership characterisation of the collected tag list. -/
theorem collectTags_mem (raw : List String) (t : String) :
    t ∈ collectTags raw ↔ ∃ t0 ∈ raw, t0 ≠ "" ∧ stripHash t0 = t := by
  rw [collectTags, foldl_collectStep_mem]
  simp

/-- The excerpt is exactly the first 30 lines of the content. -/
theorem excerptOf_lines (c : String) :
    jsSplit '\n' (excerptOf c) = (jsSplit '\n' c).take 30 := by
  rw [excerptOf]
  apply jsSplit_jsJoin
  · intro hnil
    have hlen := congrArg List.length hnil
    rw [List.length_take, List.length_nil] at hlen
    have h1 : jsSplit '\n' c ≠ [] := by
      rw [jsSplit]
      intro hh
      exact chSplit_ne_nil '\n' c.data (List.map_eq_nil_iff.mp hh)
    have h2 : (jsSplit '\n' c).length ≠ 0 :=
      fun hz => h1 (List.eq_nil_of_length_eq_zero hz)
    omega
  · intro s hs
    have hmem := List.take_subset 30 (jsSplit '\n' c) hs
    rw [jsSplit] at hmem
    rcases List.mem_map.mp hmem with ⟨g, hg, rfl⟩
    exact chSplit_no_sep '\n' c.data g hg

/-- C6: `note.getPreview` succeeds exactly when the path is present,
nonempty, and names a regular file in the vault (it fails otherwise);
on success it returns the note's path, title, modification time, the
de-duplicated tags with the leading `#` marker removed, and an excerpt
that is exactly the note's first 30 lines. -/
theorem noteGetPreview_spec (path? : Option String) (app : App) :
    ((∃ r, rpcNoteGetPreview path? app = .ok r) ↔
      (∃ p c m, path? = some p ∧ p ≠ "" ∧ app.vault.lookup p = some (.file c m)))
    ∧ (∀ p c m, path? = some p → p ≠ "" →
        app.vault.lookup p = some (.file c m) →
        rpcNoteGetPreview path? app =
          .ok { path := p, title := basename p, mtime := m,
                tags := collectTags (app.cache.tagsOf p),
                excerpt := excerptOf c }
        ∧ (collectTags (app.cache.tagsOf p)).Nodup
        ∧ (∀ t, t ∈ collectTags (app.cache.tagsOf p) ↔
            ∃ t0 ∈ app.cache.tagsOf p, t0 ≠ "" ∧ stripHash t0 = t)
        ∧ jsSplit '\n' (excerptOf c) = (jsSplit '\n' c).take 30) := by
  constructor
  · constructor
    · rintro ⟨r, hr⟩
      cases path? with
      | none => simp [rpcNoteGetPreview] at hr
      | some p =>
        by_cases hp : p = ""
        · subst hp
          simp [rpcNoteGetPreview] at hr
        · cases hl : app.vault.lookup p with
          | none => simp [rpcNoteGetPreview, hp, hl] at hr
          | some e =>
            cases e with
            | file c m => exact ⟨p, c, m, rfl, hp, hl⟩
            | folder => simp [rpcNoteGetPreview, hp, hl] at hr
    · rintro ⟨p, c, m, rfl, hp, hl⟩
      refine ⟨⟨p, basename p, m, collectTags (app.cache.tagsOf p), excerptOf c⟩, ?_⟩
      simp [rpcNoteGetPreview, hp, hl]
  · rintro p c m rfl hp hl
    refine ⟨by simp [rpcNoteGetPreview, hp, hl], collectTags_nodup _,
      fun t => collectTags_mem _ t, excerptOf_lines c⟩

/-- C6 witness: a one-note vault; the preview carries the stripped,
de-duplicated tag and the full (short) content as excerpt. -/
theorem noteGetPreview_spec_witness :
    rpcNoteGetPreview (some "a.md")
      ⟨⟨[("a.md", .file "hello\nworld" 7)]⟩, ⟨fun _ => ["#t", "t"], []⟩⟩ =
      .ok { path := "a.md", title := basename "a.md", mtime := 7,
            tags := collectTags ["#t", "t"],
            excerpt := excerptOf "hello\nworld" } :=
  ((noteGetPreview_spec (some "a.md")
      ⟨⟨[("a.md", .file "hello\nworld" 7)]⟩, ⟨fun _ => ["#t", "t"], []⟩⟩).2
    "a.md" "hello\nworld" 7 rfl (by decide) rfl).1

/-! ## Search-scan facts for the query claim -/

/-- Does the query match a file (case-insensitive substring)? -/
def searchHit (q : String) (f : MdFile) : Bool :=
  (searchMatch q f.content).isSome

/-- The result list the scan would produce with no limit: one result
per matching file, in vault order. -/
def searchResultsOf (q : String) (fs : List MdFile) : List SearchResult :=
  fs.filterMap fun f =>
    (searchMatch q f.content).map fun snip => ⟨f.path, basename f.path, snip⟩

/-- Number of matching files. -/
def matchCount (q : String) (fs : List MdFile) : Nat :=
  (fs.filter (searchHit q)).length

/-- The unlimited result list has one entry per matching file. -/
theorem searchResultsOf_length (q : String) (fs : List MdFile) :
    (searchResultsOf q fs).length = matchCount q fs := by
  induction fs with
  | nil => rfl
  | cons f rest ih =>
    rw [searchResultsOf, matchCount] at ih ⊢
    cases hm : searchMatch q f.content with
    | none =>
      rw [List.filterMap_cons, List.filter_cons]
      simp [hm, searchHit, ih]
    | some snip =>
      rw [List.filterMap_cons, List.filter_cons]
      simp [hm, searchHit, ih]

/-- Unlimited results step over a non-matching file. -/
theorem searchResultsOf_cons_none (q : String) (f : MdFile) (rest : List MdFile)
    (hm : searchMatch q f.content = none) :
    searchResultsOf q (f :: rest) = searchResultsOf q rest := by
  simp [searchResultsOf, List.filterMap_cons, hm]

/-- Unlimited results step over a matching file. -/
theorem searchResultsOf_cons_some (q : String) (f : MdFile) (rest : List MdFile)
    (snip : String) (hm : searchMatch q f.content = some snip) :
    searchResultsOf q (f :: rest) =
      ⟨f.path, basename f.path, snip⟩ :: searchResultsOf q rest := by
  simp [searchResultsOf, List.filterMap_cons, hm]

/-- The scan's results are the first `limit.toNat` (minus what the
accumulator already holds) of the unlimited result list. -/
theorem searchScanGo_results (q : String) (L : Int) :
    ∀ (fs : List MdFile) (acc : List SearchResult) (log : List String),
      (searchScanGo q L fs acc log).1 =
        acc ++ (searchResultsOf q fs).take (L.toNat - acc.length) := by
  intro fs
  induction fs with
  | nil => simp [searchScanGo, searchResultsOf]
  | cons f rest ih =>
    intro acc log
    by_cases hstop : (acc.length : Int) ≥ L
    · have h0 : L.toNat - acc.length = 0 := by
        have := Int.toNat_le.mpr hstop
        omega
      rw [searchScanGo, if_pos hstop, h0]
      simp
    · have hlt : acc.length < L.toNat := Int.lt_toNat.mpr (lt_of_not_ge hstop)
      cases hm : searchMatch q f.content with
      | none =>
        rw [searchScanGo, if_neg hstop]
        simp only [hm]
        rw [ih, searchResultsOf_cons_none q f rest hm]
      | some snip =>
        rw [searchScanGo, if_neg hstop]
        simp only [hm]
        rw [ih, searchResultsOf_cons_some q f rest snip hm]
        have hsucc : L.toNat - acc.length = (L.toNat - (acc.length + 1)) + 1 := by
          omega
        rw [hsucc, List.take_succ_cons]
        simp [List.append_assoc]

/-- The read log extends the incoming log by a prefix of the scanned
file paths. -/
theorem searchScanGo_log (q : String) (L : Int) :
    ∀ (fs : List MdFile) (acc : List SearchResult) (log : List String),
      ∃ t, (searchScanGo q L fs acc log).2 = log ++ t ∧ t <+: fs.map MdFile.path := by
  intro fs
  induction fs with
  | nil =>
    intro acc log
    exact ⟨[], by simp [searchScanGo], List.nil_prefix⟩
  | cons f rest ih =>
    intro acc log
    by_cases hstop : (acc.length : Int) ≥ L
    · rw [searchScanGo, if_pos hstop]
      exact ⟨[], by simp, List.nil_prefix⟩
    · cases hm : searchMatch q f.content with
      | none =>
        obtain ⟨t, ht, hpre⟩ := ih acc (log ++ [f.path])
        refine ⟨f.path :: t, ?_, List.cons_prefix_cons.mpr ⟨rfl, hpre⟩⟩
        rw [searchScanGo, if_neg hstop]
        simp only [hm]
        rw [ht, List.append_assoc, List.singleton_append]
      | some snip =>
        obtain ⟨t, ht, hpre⟩ := ih (acc ++ [⟨f.path, basename f.path, snip⟩])
          (log ++ [f.path])
        refine ⟨f.path :: t, ?_, List.cons_prefix_cons.mpr ⟨rfl, hpre⟩⟩
        rw [searchScanGo, if_neg hstop]
        simp only [hm]
        rw [ht, List.append_assoc, List.singleton_append]

/-- The scan stops reading as soon as the limit is reached: whenever a
prefix of the file list already contains enough matches to fill the
limit, the read log is no longer than that prefix. -/
theorem searchScanGo_stop (q : String) (L : Int) :
    ∀ (fs : List MdFile) (acc : List SearchResult) (log : List String) (n : Nat),
      L.toNat ≤ acc.length + matchCount q (fs.take n) →
      (searchScanGo q L fs acc log).2.length ≤ log.length + n := by
  intro fs
  induction fs with
  | nil =>
    intro acc log n _
    rw [searchScanGo]
    show log.length ≤ log.length + n
    omega
  | cons f rest ih =>
    intro acc log n hn
    by_cases hstop : (acc.length : Int) ≥ L
    · rw [searchScanGo, if_pos hstop]
      show log.length ≤ log.length + n
      omega
    · have hlt : acc.length < L.toNat := Int.lt_toNat.mpr (lt_of_not_ge hstop)
      cases n with
      | zero =>
        rw [List.take_zero] at hn
        simp only [matchCount, List.filter_nil, List.length_nil] at hn
        omega
      | succ m =>
        rw [List.take_succ_cons, matchCount, List.filter_cons] at hn
        cases hm : searchMatch q f.content with
        | none =>
          have hhit : searchHit q f = false := by
            simp [searchHit, hm]
          rw [hhit] at hn
          simp at hn
          rw [searchScanGo, if_neg hstop]
          simp only [hm]
          have := ih acc (log ++ [f.path]) m (by
            rw [matchCount]
            omega)
          simp only [List.length_append, List.length_cons, List.length_nil] at this
          omega
        | some snip =>
          have hhit : searchHit q f = true := by
            simp [searchHit, hm]
          rw [hhit] at hn
          simp at hn
          rw [searchScanGo, if_neg hstop]
          simp only [hm]
          have := ih (acc ++ [⟨f.path, basename f.path, snip⟩]) (log ++ [f.path]) m (by
            rw [matchCount, List.length_append]
            simp
            omega)
          simp only [List.length_append, List.length_cons, List.length_nil] at this
          omega

/-- C3 counterexample: the claim quantifies over every limit value,
but for a negative limit (e.g. `-1`) the code returns an (empty)
result list whose length is not `≤ min limit 200`, so the bound as
stated fails. -/
theorem searchQuery_spec_counterexample :
    ¬ (∀ (q? : Option String) (limit? : Option Int) (app : App)
        (resp : SearchResponse) (log : List String),
        rpcSearchQuery q? limit? app = .ok (resp, log) →
        ((resp.results.length : Int) ≤ min (limit?.getD 50) 200)) := by
  intro hclaim
  have h := hclaim (some "foo") (some (-1)) ⟨⟨[]⟩, ⟨fun _ => [], []⟩⟩
    { query := "foo", results := [] } [] rfl
  revert h
  decide

/-- C3 (amended): `search.query` returns the first
`max 0 (min (limit, 200))` matches (limit defaulting to 50 when
absent), hence at most that many results, and it stops scanning as
soon as that many matches have been collected: the read log is a
prefix of the file list that never extends past any prefix already
containing enough matches. -/
theorem searchQuery_spec (q? : Option String) (limit? : Option Int) (app : App)
    (resp : SearchResponse) (log : List String)
    (h : rpcSearchQuery q? limit? app = .ok (resp, log)) :
    resp.results = (searchResultsOf resp.query app.vault.getMarkdownFiles).take
        (min (limit?.getD 50) 200).toNat
    ∧ resp.results.length =
        min (min (limit?.getD 50) 200).toNat
          (matchCount resp.query app.vault.getMarkdownFiles)
    ∧ resp.results.length ≤ (min (limit?.getD 50) 200).toNat
    ∧ log <+: app.vault.getMarkdownFiles.map MdFile.path
    ∧ (∀ n, (min (limit?.getD 50) 200).toNat ≤
          matchCount resp.query (app.vault.getMarkdownFiles.take n) →
        log.length ≤ n) := by
  rw [rpcSearchQuery] at h
  by_cases hq : jsTrim (q?.getD "") = ""
  · rw [if_pos hq] at h
    cases h
  · rw [if_neg hq] at h
    simp only [Except.ok.injEq, Prod.mk.injEq] at h
    obtain ⟨hresp, hlog⟩ := h
    subst hresp
    subst hlog
    refine ⟨?_, ?_, ?_, ?_, ?_⟩
    · rw [searchScanGo_results]
      simp
    · rw [searchScanGo_results]
      simp [List.length_take, searchResultsOf_length]
    · rw [searchScanGo_results]
      simp [List.length_take]
    · obtain ⟨t, ht, hpre⟩ := searchScanGo_log (jsTrim (q?.getD ""))
        (min (limit?.getD 50) 200) app.vault.getMarkdownFiles [] []
      rw [ht, List.nil_append]
      exact hpre
    · intro n hn
      have := searchScanGo_stop (jsTrim (q?.getD "")) (min (limit?.getD 50) 200)
        app.vault.getMarkdownFiles [] [] n (by simpa using hn)
      simpa using this

/-- C3 witness: three files, two of which contain "foo", limit 1: one
result, one file read, and the stop bound holds. -/
theorem searchQuery_spec_witness :
    ({ query := "foo",
       results := [⟨"a.md", basename "a.md", "xfoox"⟩] } : SearchResponse).results =
      (searchResultsOf "foo"
        (Vault.getMarkdownFiles ⟨[("a.md", .file "xfoox" 1), ("b.md", .file "foo" 2),
          ("c.md", .file "bar" 3)]⟩)).take (min ((some (1 : Int)).getD 50) 200).toNat
    ∧ ([⟨"a.md", basename "a.md", "xfoox"⟩] : List SearchResult).length =
        min (min ((some (1 : Int)).getD 50) 200).toNat
          (matchCount "foo"
            (Vault.getMarkdownFiles ⟨[("a.md", .file "xfoox" 1), ("b.md", .file "foo" 2),
              ("c.md", .file "bar" 3)]⟩))
    ∧ ([⟨"a.md", basename "a.md", "xfoox"⟩] : List SearchResult).length ≤
        (min ((some (1 : Int)).getD 50) 200).toNat
    ∧ ["a.md"] <+:
        (Vault.getMarkdownFiles ⟨[("a.md", .file "xfoox" 1), ("b.md", .file "foo" 2),
          ("c.md", .file "bar" 3)]⟩).map MdFile.path
    ∧ (∀ n, (min ((some (1 : Int)).getD 50) 200).toNat ≤
          matchCount "foo"
            ((Vault.getMarkdownFiles ⟨[("a.md", .file "xfoox" 1), ("b.md", .file "foo" 2),
              ("c.md", .file "bar" 3)]⟩).take n) →
        (["a.md"] : List String).length ≤ n) := by
  have h := searchQuery_spec (some "foo") (some 1)
    ⟨⟨[("a.md", .file "xfoox" 1), ("b.md", .file "foo" 2), ("c.md", .file "bar" 3)]⟩,
      ⟨fun _ => [], []⟩⟩
    { query := "foo", results := [⟨"a.md", basename "a.md", "xfoox"⟩] } ["a.md"]
    rfl
  exact h

/-! ## Path-segment facts for the create claim -/

/-- The intermediate folder paths `ensureFolderPath` walks for a given
accumulated start and segment list. -/
def accSegPaths (current : String) : List String → List String
  | [] => []
  | seg :: rest => joinSeg current seg :: accSegPaths (joinSeg current seg) rest

/-- The intermediate folder paths of a note path: what
`ensureFolderPath` walks for `path.split("/").slice(0, -1).join("/")`. -/
def folderPrefixes (path : String) : List String :=
  accSegPaths "" ((jsSplit '/' (folderPathOf path)).filter (· ≠ ""))

/-- Lookup distributes over appended entry lists. -/
theorem lookup_append (l1 l2 : List (String × VaultEntry)) (k : String) :
    (l1 ++ l2).lookup k =
      match l1.lookup k with
      | some v => some v
      | none => l2.lookup k := by
  induction l1 with
  | nil => simp
  | cons e rest ih =>
    obtain ⟨k', v'⟩ := e
    rw [List.cons_append, List.lookup_cons, List.lookup_cons]
    cases k == k' <;> simp [ih]

/-- A nonempty string has positive length. -/
theorem length_pos_of_ne_empty (s : String) (h : s ≠ "") : 0 < s.length := by
  cases s with
  | mk l =>
    cases l with
    | nil => exact absurd rfl h
    | cons c cs =>
      show 0 < (c :: cs).length
      simp

/-- Joining a segment strictly lengthens a path when the segment is
nonempty, and never shortens it. -/
theorem joinSeg_length (current seg : String) :
    current.length ≤ (joinSeg current seg).length ∧
      (seg ≠ "" → current.length < (joinSeg current seg).length) := by
  rw [joinSeg]
  by_cases hc : current = ""
  · rw [if_pos hc]
    subst hc
    have hz : ("" : String).length = 0 := rfl
    refine ⟨by omega, fun hs => ?_⟩
    have := length_pos_of_ne_empty seg hs
    omega
  · rw [if_neg hc]
    rw [String.length_append, String.length_append]
    have : (("/" : String)).length = 1 := rfl
    omega

/-- Every walked folder path is strictly longer than the start. -/
theorem accSegPaths_mono (segs : List String) :
    ∀ current d, (∀ s ∈ segs, s ≠ "") → d ∈ accSegPaths current segs →
      current.length < d.length := by
  induction segs with
  | nil => simp [accSegPaths]
  | cons seg rest ih =>
    intro current d hne hd
    rcases List.mem_cons.mp hd with h | h
    · subst h
      exact (joinSeg_length current seg).2 (hne seg (List.mem_cons_self seg rest))
    · have h1 : (joinSeg current seg).length < d.length :=
        ih (joinSeg current seg) d (fun s hs => hne s (List.mem_cons_of_mem seg hs)) h
      have h2 : current.length ≤ (joinSeg current seg).length :=
        (joinSeg_length current seg).1
      omega

/-- The fold of `joinSeg` never shortens the start. -/
theorem foldl_joinSeg_ge (rest : List String) :
    ∀ current : String, current.length ≤ (rest.foldl joinSeg current).length := by
  induction rest with
  | nil => simp
  | cons s r ih =>
    intro current
    rw [List.foldl_cons]
    have h1 := (joinSeg_length current s).1
    have h2 := ih (joinSeg current s)
    omega

/-- Every walked folder path is at most as long as the full fold of
the segments. -/
theorem accSegPaths_le_fold (segs : List String) :
    ∀ current d, d ∈ accSegPaths current segs →
      d.length ≤ (segs.foldl joinSeg current).length := by
  induction segs with
  | nil => simp [accSegPaths]
  | cons seg rest ih =>
    intro current d hd
    rw [List.foldl_cons]
    rcases List.mem_cons.mp hd with h | h
    · subst h
      exact foldl_joinSeg_ge rest (joinSeg current seg)
    · exact ih (joinSeg current seg) d h

/-- Appending a character-level group to a nonempty join. -/
theorem chJoin_append_singleton (sep : Char) (gs : List (List Char))
    (g : List Char) (hne : gs ≠ []) :
    chJoin sep (gs ++ [g]) = chJoin sep gs ++ sep :: g := by
  induction gs with
  | nil => exact absurd rfl hne
  | cons g1 rest ih =>
    cases rest with
    | nil => rfl
    | cons g2 rest2 =>
      have h1 : chJoin sep ((g1 :: g2 :: rest2) ++ [g]) =
          g1 ++ sep :: chJoin sep ((g2 :: rest2) ++ [g]) := rfl
      have h2 : chJoin sep (g1 :: g2 :: rest2) = g1 ++ sep :: chJoin sep (g2 :: rest2) := rfl
      rw [h1, ih (by simp), h2, List.append_assoc]
      simp

/-- Appending a segment to a nonempty join, string level. -/
theorem jsJoin_append_singleton (sep : Char) (ss : List String) (s : String)
    (hne : ss ≠ []) :
    jsJoin sep (ss ++ [s]) = jsJoin sep ss ++ ⟨[sep]⟩ ++ s := by
  apply String.ext
  show chJoin sep ((ss ++ [s]).map String.data) = _
  rw [List.map_append, List.map_singleton,
    chJoin_append_singleton sep _ s.data (by simpa using hne)]
  rw [String.data_append, String.data_append]
  have hd : (jsJoin sep ss).data = chJoin sep (ss.map String.data) := rfl
  rw [hd]
  simp

/-- The fold of `joinSeg` from the empty start is the slash-join, for
nonempty segments. -/
theorem foldl_joinSeg_eq_join (segs : List String) (hne : segs ≠ [])
    (h : ∀ s ∈ segs, s ≠ "") : segs.foldl joinSeg "" = jsJoin '/' segs := by
  have step : ∀ (rest : List String) (current : String), current ≠ "" → rest ≠ [] →
      rest.foldl joinSeg current = current ++ "/" ++ jsJoin '/' rest := by
    intro rest
    induction rest with
    | nil => intro current _ hr; exact absurd rfl hr
    | cons s2 r2 ih =>
      intro current hcur _
      rw [List.foldl_cons]
      cases r2 with
      | nil =>
        have : jsJoin '/' [s2] = s2 := rfl
        rw [this]
        show joinSeg current s2 = current ++ "/" ++ s2
        rw [joinSeg, if_neg hcur]
      | cons s3 r3 =>
        have hjcur : joinSeg current s2 ≠ "" := by
          intro hz
          have h1 := (joinSeg_length current s2).1
          have h2 := length_pos_of_ne_empty current hcur
          rw [hz] at h1
          have h3 : ("" : String).length = 0 := rfl
          omega
        rw [ih (joinSeg current s2) hjcur (by simp)]
        rw [joinSeg, if_neg hcur]
        have hsplit : jsJoin '/' (s2 :: s3 :: r3) = s2 ++ "/" ++ jsJoin '/' (s3 :: r3) := by
          apply String.ext
          rw [String.data_append, String.data_append]
          show chJoin '/' ((s2 :: s3 :: r3).map String.data) =
            s2.data ++ ['/'] ++ chJoin '/' ((s3 :: r3).map String.data)
          have hc : chJoin '/' ((s2 :: s3 :: r3).map String.data) =
              s2.data ++ '/' :: chJoin '/' ((s3 :: r3).map String.data) := rfl
          rw [hc]
          simp
        rw [hsplit]
        simp [String.append_assoc]
  cases segs with
  | nil => exact absurd rfl hne
  | cons s rest =>
    rw [List.foldl_cons]
    have hs : joinSeg "" s = s := by rw [joinSeg, if_pos rfl]
    rw [hs]
    cases rest with
    | nil => rfl
    | cons s2 r2 =>
      rw [step (s2 :: r2) s (h s (List.mem_cons_self s _)) (by simp)]
      apply String.ext
      rw [String.data_append, String.data_append]
      show s.data ++ ['/'] ++ chJoin '/' ((s2 :: r2).map String.data) =
        chJoin '/' ((s :: s2 :: r2).map String.data)
      have hc : chJoin '/' ((s :: s2 :: r2).map String.data) =
          s.data ++ '/' :: chJoin '/' ((s2 :: r2).map String.data) := rfl
      rw [hc]
      simp

/-- Normalized segments are nonempty. -/
theorem normSegs_ne_empty (p : String) : ∀ s ∈ normSegs p, s ≠ "" := by
  intro s hs
  simp only [normSegs, List.mem_filter, decide_eq_true_eq] at hs
  exact hs.2

/-- Normalized segments contain no slash. -/
theorem normSegs_no_sep (p : String) : ∀ s ∈ normSegs p, '/' ∉ s.data := by
  intro s hs
  simp only [normSegs, List.mem_filter] at hs
  rcases List.mem_map.mp hs.1 with ⟨g, hg, rfl⟩
  exact chSplit_no_sep '/' _ g hg

/-- Splitting a normalized path recovers its segments. -/
theorem jsSplit_normalizePath (p : String) (hne : normSegs p ≠ []) :
    jsSplit '/' (normalizePath p) = normSegs p :=
  jsSplit_jsJoin '/' (normSegs p) hne (normSegs_no_sep p)

/-- The folder part of a normalized path joins all but the last
segment. -/
theorem folderPathOf_norm (p : String) (hne : normSegs p ≠ []) :
    folderPathOf (normalizePath p) = jsJoin '/' (normSegs p).dropLast := by
  rw [folderPathOf, jsSplit_normalizePath p hne]

/-- The segments `ensureFolderPath` walks for a normalized path are
exactly all but the last normalized segment. -/
theorem folderSegs_norm (p : String) (hne : normSegs p ≠ []) :
    (jsSplit '/' (folderPathOf (normalizePath p))).filter (· ≠ "") =
      (normSegs p).dropLast := by
  rw [folderPathOf_norm p hne]
  cases hdl : (normSegs p).dropLast with
  | nil => decide
  | cons s rest =>
    rw [← hdl, jsSplit_jsJoin '/' _ (by rw [hdl]; simp)
      (fun s' hs' => normSegs_no_sep p s' (List.dropLast_subset _ hs'))]
    rw [List.filter_eq_self.mpr]
    intro s' hs'
    have := normSegs_ne_empty p s' (List.dropLast_subset _ hs')
    simpa using this

/-- Every intermediate folder path of a normalized note path is
strictly shorter than the path itself. -/
theorem folderPrefixes_lt (p : String) (hne : normSegs p ≠ []) :
    ∀ d ∈ folderPrefixes (normalizePath p), d.length < (normalizePath p).length := by
  intro d hd
  rw [folderPrefixes, folderSegs_norm p hne] at hd
  cases hdl : (normSegs p).dropLast with
  | nil =>
    rw [hdl] at hd
    simp [accSegPaths] at hd
  | cons s rest =>
    rw [hdl] at hd
    have h1 : d.length ≤ ((s :: rest).foldl joinSeg "").length :=
      accSegPaths_le_fold (s :: rest) "" d hd
    rw [foldl_joinSeg_eq_join (s :: rest) (by simp)
      (fun s' hs' => normSegs_ne_empty p s' (List.dropLast_subset _ (hdl ▸ hs')))] at h1
    have h2 : normalizePath p =
        jsJoin '/' ((normSegs p).dropLast) ++ (⟨['/']⟩ : String) ++
          (normSegs p).getLast hne := by
      rw [normalizePath]
      conv_lhs => rw [← List.dropLast_append_getLast hne]
      rw [jsJoin_append_singleton '/' _ _ (by rw [hdl]; simp)]
    rw [h2, String.length_append, String.length_append, hdl]
    have h3 : ((⟨['/']⟩ : String)).length = 1 := rfl
    omega

/-- Lookup misses a folder-entry block for an absent path. -/
theorem lookup_folders_none (paths : List String) (q : String) (h : q ∉ paths) :
    (paths.map fun d => (d, VaultEntry.folder)).lookup q = none := by
  induction paths with
  | nil => rfl
  | cons d rest ih =>
    rw [List.map_cons, List.lookup_cons]
    have hq : (q == d) = false := by
      simp only [List.mem_cons, not_or] at h
      simpa using h.1
    rw [hq]
    exact ih (fun hm => h (List.mem_cons_of_mem d hm))

/-- Lookup finds a folder in a folder-entry block for a present path. -/
theorem lookup_folders_mem (paths : List String) (q : String) (h : q ∈ paths) :
    (paths.map fun d => (d, VaultEntry.folder)).lookup q = some .folder := by
  induction paths with
  | nil => simp at h
  | cons d rest ih =>
    rw [List.map_cons, List.lookup_cons]
    by_cases hq : q = d
    · rw [show (q == d) = true by simpa using hq]
    · rw [show (q == d) = false by simpa using hq]
      rcases List.mem_cons.mp h with h1 | h1
      · exact absurd h1 hq
      · exact ih h1

/-- Lookup in a one-entry block. -/
theorem lookup_singleton (q k : String) (e : VaultEntry) :
    ([(k, e)] : List (String × VaultEntry)).lookup q =
      if q = k then some e else none := by
  rw [List.lookup_cons]
  by_cases h : q = k
  · rw [if_pos h, show (q == k) = true by simpa using h]
  · rw [if_neg h, show (q == k) = false by simpa using h]
    rfl

/-- Inserting a folder either preserves a lookup or answers it with a
folder. -/
theorem insertFolder_lookup (v : Vault) (cur q : String) :
    (v.insertFolder cur).lookup q = v.lookup q ∨
      (v.insertFolder cur).lookup q = some .folder := by
  have hbase : (v.insertFolder cur).lookup q =
      (v.entries ++ [(cur, VaultEntry.folder)]).lookup q := rfl
  rw [hbase, lookup_append]
  cases hvq : v.entries.lookup q with
  | some e =>
    left
    show some e = v.lookup q
    simp [Vault.lookup, hvq]
  | none =>
    by_cases hqc : q = cur
    · right
      show ([(cur, VaultEntry.folder)] : List (String × VaultEntry)).lookup q =
        some VaultEntry.folder
      rw [lookup_singleton, if_pos hqc]
    · left
      show ([(cur, VaultEntry.folder)] : List (String × VaultEntry)).lookup q =
        v.lookup q
      rw [lookup_singleton, if_neg hqc]
      simp [Vault.lookup, hvq]

/-- Inserting a folder preserves a lookup that was already answered. -/
theorem insertFolder_lookup_some (v : Vault) (cur q : String) (e : VaultEntry)
    (h : v.lookup q = some e) : (v.insertFolder cur).lookup q = some e := by
  show (v.entries ++ [(cur, VaultEntry.folder)]).lookup q = some e
  rw [lookup_append, show v.entries.lookup q = some e from h]

/-- When every walked folder path is absent, `ensureFolderGo` creates
each of them in order and succeeds. -/
theorem ensureFolderGo_all_absent (segs : List String) :
    ∀ (v : Vault) (log : List String) (current : String),
      (∀ s ∈ segs, s ≠ "") →
      (∀ d ∈ accSegPaths current segs, v.lookup d = none) →
      ensureFolderGo v log current segs =
        (.ok (), ⟨v.entries ++ (accSegPaths current segs).map
            fun d => (d, VaultEntry.folder)⟩,
         log ++ accSegPaths current segs) := by
  induction segs with
  | nil =>
    intro v log current _ _
    cases v
    simp [ensureFolderGo, accSegPaths]
  | cons seg rest ih =>
    intro v log current hne habs
    have hcur : v.lookup (joinSeg current seg) = none :=
      habs _ (by rw [accSegPaths]; exact List.mem_cons_self _ _)
    rw [ensureFolderGo]
    simp only [hcur]
    rw [ih (v.insertFolder (joinSeg current seg)) (log ++ [joinSeg current seg])
      (joinSeg current seg) (fun s hs => hne s (List.mem_cons_of_mem seg hs)) ?_]
    · rw [accSegPaths]
      simp [Vault.insertFolder, List.append_assoc]
    · intro d hd
      have hdv : v.lookup d = none :=
        habs d (by rw [accSegPaths]; exact List.mem_cons_of_mem _ hd)
      have hlen := accSegPaths_mono rest (joinSeg current seg) d
        (fun s hs => hne s (List.mem_cons_of_mem seg hs)) hd
      show ((v.entries ++ [(joinSeg current seg, VaultEntry.folder)]).lookup d) = none
      rw [lookup_append, show v.entries.lookup d = none from hdv, lookup_singleton,
        if_neg (fun hdc => by rw [hdc] at hlen; exact lt_irrefl _ hlen)]

/-- `ensureFolderGo` only ever adds folder entries: any lookup in the
resulting vault is either the original answer or a folder. -/
theorem ensureFolderGo_lookup (segs : List String) :
    ∀ (v : Vault) (log : List String) (current q : String),
      (ensureFolderGo v log current segs).2.1.lookup q = v.lookup q ∨
        (ensureFolderGo v log current segs).2.1.lookup q = some .folder := by
  induction segs with
  | nil =>
    intro v log current q
    left
    rfl
  | cons seg rest ih =>
    intro v log current q
    rw [ensureFolderGo]
    cases hcur : v.lookup (joinSeg current seg) with
    | none =>
      simp only [hcur]
      rcases ih (v.insertFolder (joinSeg current seg)) (log ++ [joinSeg current seg])
        (joinSeg current seg) q with h | h
      · rcases insertFolder_lookup v (joinSeg current seg) q with h2 | h2
        · left
          rw [h, h2]
        · right
          rw [h, h2]
      · right
        exact h
    | some e =>
      cases e with
      | folder =>
        simp only [hcur]
        exact ih v log (joinSeg current seg) q
      | file c m =>
        simp only [hcur]
        left
        trivial

/-- When some walked folder path is occupied by a file,
`ensureFolderGo` fails. -/
theorem ensureFolderGo_error (segs : List String) :
    ∀ (v : Vault) (log : List String) (current : String),
      (∃ d ∈ accSegPaths current segs, ∃ c m, v.lookup d = some (.file c m)) →
      ∃ e, (ensureFolderGo v log current segs).1 = .error e := by
  induction segs with
  | nil =>
    intro v log current h
    simp [accSegPaths] at h
  | cons seg rest ih =>
    rintro v log current ⟨d, hd, c, m, hfile⟩
    rw [ensureFolderGo]
    cases hcur : v.lookup (joinSeg current seg) with
    | none =>
      simp only [hcur]
      apply ih
      have hdne : d ≠ joinSeg current seg := by
        intro hdc
        rw [hdc, hcur] at hfile
        cases hfile
      have hd2 : d ∈ accSegPaths (joinSeg current seg) rest := by
        rw [accSegPaths] at hd
        rcases List.mem_cons.mp hd with h1 | h1
        · exact absurd h1 hdne
        · exact h1
      exact ⟨d, hd2, c, m, insertFolder_lookup_some v _ d _ hfile⟩
    | some e =>
      cases e with
      | folder =>
        simp only [hcur]
        apply ih
        have hdne : d ≠ joinSeg current seg := by
          intro hdc
          rw [hdc, hcur] at hfile
          cases hfile
        have hd2 : d ∈ accSegPaths (joinSeg current seg) rest := by
          rw [accSegPaths] at hd
          rcases List.mem_cons.mp hd with h1 | h1
          · exact absurd h1 hdne
          · exact h1
        exact ⟨d, hd2, c, m, hfile⟩
      | file c2 m2 =>
        simp only [hcur]
        exact ⟨_, rfl⟩

/-- Reduction of `rpcNoteCreate` past its parameter validation, for a
present, valid path whose target is not an existing file. -/
theorem rpcNoteCreate_reduce (rawPath heading body : String) (v : Vault) (now : Nat)
    (hpath : jsTrim rawPath ≠ "") (hhead : jsTrim heading ≠ "")
    (hmd : strEndsWith (jsToLower (normalizePath (jsTrim rawPath))) ".md" = true)
    (hnotfile : ∀ c m,
      v.lookup (normalizePath (jsTrim rawPath)) ≠ some (.file c m))
    (efl : Except String Unit × Vault × List String)
    (hefl : efl =
      if folderPathOf (normalizePath (jsTrim rawPath)) = ""
      then (.ok (), v, ([] : List String))
      else ensureFolderPath v (folderPathOf (normalizePath (jsTrim rawPath)))) :
    rpcNoteCreate (some rawPath) (some heading) (some body) v now =
      (match efl.1 with
       | .error e => (.error e, efl.2.1, efl.2.2)
       | .ok _ =>
         match efl.2.1.create (normalizePath (jsTrim rawPath))
             (noteContent (jsTrim heading) body) now with
         | .error e => (.error e, efl.2.1, efl.2.2)
         | .ok v2 =>
           (.ok { path := normalizePath (jsTrim rawPath),
                  title := basename (normalizePath (jsTrim rawPath)),
                  mtime := now, created := true },
            v2, efl.2.2 ++ [normalizePath (jsTrim rawPath)])) := by
  subst hefl
  rw [rpcNoteCreate]
  simp only [Option.getD_some]
  rw [if_neg hpath, if_neg hhead, if_neg (by rw [hmd]; simp)]

/-- `rpcNoteCreate` on a valid path that already names a file fails
with the already-exists error and changes nothing. -/
theorem rpcNoteCreate_exists (rawPath heading body : String) (v : Vault) (now : Nat)
    (hpath : jsTrim rawPath ≠ "") (hhead : jsTrim heading ≠ "")
    (hmd : strEndsWith (jsToLower (normalizePath (jsTrim rawPath))) ".md" = true)
    (c : String) (m : Nat)
    (hfile : v.lookup (normalizePath (jsTrim rawPath)) = some (.file c m)) :
    rpcNoteCreate (some rawPath) (some heading) (some body) v now =
      (.error ("File already exists: " ++ normalizePath (jsTrim rawPath)), v, []) := by
  rw [rpcNoteCreate]
  simp only [Option.getD_some]
  rw [if_neg hpath, if_neg hhead, if_neg (by rw [hmd]; simp)]
  simp only [hfile]

/-- C2 (amended): with a present path (trimmed, normalized, `.md`),
a nonempty trimmed heading, target absent, and every intermediate
folder absent, `note.create` creates each intermediate folder in
order and then the file, whose content is `# ` followed by the
trimmed heading, a blank line, the body with trailing whitespace
removed, and a final newline; a second identical call fails with an
already-exists error; and a call on a vault where some intermediate
segment exists as a non-folder fails without creating the file. -/
theorem noteCreate_spec (rawPath heading body : String) (v : Vault) (now now2 : Nat)
    (hpath : jsTrim rawPath ≠ "") (hhead : jsTrim heading ≠ "")
    (hmd : strEndsWith (jsToLower (normalizePath (jsTrim rawPath))) ".md" = true)
    (habs : v.lookup (normalizePath (jsTrim rawPath)) = none)
    (hdirs : ∀ d ∈ folderPrefixes (normalizePath (jsTrim rawPath)),
      v.lookup d = none) :
    (rpcNoteCreate (some rawPath) (some heading) (some body) v now).2.2 =
        folderPrefixes (normalizePath (jsTrim rawPath)) ++
          [normalizePath (jsTrim rawPath)]
    ∧ (rpcNoteCreate (some rawPath) (some heading) (some body) v now).1 =
        .ok { path := normalizePath (jsTrim rawPath),
              title := basename (normalizePath (jsTrim rawPath)),
              mtime := now, created := true }
    ∧ (rpcNoteCreate (some rawPath) (some heading) (some body) v now).2.1.lookup
          (normalizePath (jsTrim rawPath)) =
        some (.file ("# " ++ jsTrim heading ++ "\n\n" ++ jsTrimEnd body ++ "\n") now)
    ∧ (∀ d ∈ folderPrefixes (normalizePath (jsTrim rawPath)),
        (rpcNoteCreate (some rawPath) (some heading) (some body) v now).2.1.lookup d =
          some VaultEntry.folder)
    ∧ (rpcNoteCreate (some rawPath) (some heading) (some body)
          (rpcNoteCreate (some rawPath) (some heading) (some body) v now).2.1 now2).1 =
        .error ("File already exists: " ++ normalizePath (jsTrim rawPath))
    ∧ (∀ v' : Vault,
        (∃ d ∈ folderPrefixes (normalizePath (jsTrim rawPath)),
          ∃ c m, v'.lookup d = some (.file c m)) →
        (∃ e, (rpcNoteCreate (some rawPath) (some heading) (some body) v' now).1 =
          .error e)
        ∧ (∀ c m,
            (rpcNoteCreate (some rawPath) (some heading) (some body) v' now).2.1.lookup
              (normalizePath (jsTrim rawPath)) = some (.file c m) →
            v'.lookup (normalizePath (jsTrim rawPath)) = some (.file c m))) := by
  have hne_ps : normSegs (jsTrim rawPath) ≠ [] := by
    intro h0
    have hpe : normalizePath (jsTrim rawPath) = "" := by
      simp only [normalizePath, h0]
      rfl
    rw [hpe] at hmd
    exact absurd hmd (by decide)
  have hnotfile : ∀ c m,
      v.lookup (normalizePath (jsTrim rawPath)) ≠ some (.file c m) := by
    intro c m h
    rw [habs] at h
    cases h
  have hcontent : noteContent (jsTrim heading) body =
      "# " ++ jsTrim heading ++ "\n\n" ++ jsTrimEnd body ++ "\n" := rfl
  have habsL : List.lookup (normalizePath (jsTrim rawPath)) v.entries = none := habs
  cases hdl : (normSegs (jsTrim rawPath)).dropLast with
  | nil =>
    have hfp : folderPathOf (normalizePath (jsTrim rawPath)) = "" := by
      rw [folderPathOf_norm _ hne_ps, hdl]
      rfl
    have hP : folderPrefixes (normalizePath (jsTrim rawPath)) = [] := by
      rw [folderPrefixes, folderSegs_norm _ hne_ps, hdl]
      rfl
    have hcr : v.create (normalizePath (jsTrim rawPath))
        (noteContent (jsTrim heading) body) now =
        .ok ⟨v.entries ++ [(normalizePath (jsTrim rawPath),
          .file (noteContent (jsTrim heading) body) now)]⟩ := by
      rw [Vault.create.eq_def, habs]
    have hred := rpcNoteCreate_reduce rawPath heading body v now hpath hhead hmd
      hnotfile (.ok (), v, ([] : List String)) (by rw [if_pos hfp])
    simp only [hcr] at hred
    rw [hP]
    refine ⟨by rw [hred], by rw [hred], ?_, ?_, ?_, ?_⟩
    · rw [hred]
      show (Vault.mk _).lookup _ = _
      rw [Vault.lookup, lookup_append, habsL, lookup_singleton, if_pos rfl, hcontent]
    · intro d hd
      simp at hd
    · rw [hred]
      show (rpcNoteCreate (some rawPath) (some heading) (some body)
        (⟨v.entries ++ [(normalizePath (jsTrim rawPath),
          VaultEntry.file (noteContent (jsTrim heading) body) now)]⟩ : Vault) now2).1 = _
      rw [rpcNoteCreate_exists rawPath heading body _ now2 hpath hhead hmd
        (noteContent (jsTrim heading) body) now (by
          show (v.entries ++ [(normalizePath (jsTrim rawPath),
            VaultEntry.file (noteContent (jsTrim heading) body) now)]).lookup
            (normalizePath (jsTrim rawPath)) = _
          rw [lookup_append, habsL, lookup_singleton, if_pos rfl])]
    · intro v' hconf
      rcases hconf with ⟨d, hdmem, _, _, _⟩
      simp at hdmem
  | cons s rest =>
    have hsegs : (jsSplit '/' (folderPathOf (normalizePath (jsTrim rawPath)))).filter
        (· ≠ "") = s :: rest := by
      rw [folderSegs_norm _ hne_ps, hdl]
    have helems : ∀ s' ∈ s :: rest, s' ≠ "" := by
      intro s' hs'
      exact normSegs_ne_empty _ s' (List.dropLast_subset _ (hdl ▸ hs'))
    have hfp_ne : folderPathOf (normalizePath (jsTrim rawPath)) ≠ "" := by
      intro hz
      have h1 : (jsSplit '/' ("" : String)).filter (· ≠ "") = [] := by decide
      rw [hz, h1] at hsegs
      cases hsegs
    have hP : folderPrefixes (normalizePath (jsTrim rawPath)) =
        accSegPaths "" (s :: rest) := by
      rw [folderPrefixes, hsegs]
    have habs2 : ∀ d ∈ accSegPaths "" (s :: rest), v.lookup d = none := by
      intro d hd
      exact hdirs d (by rw [hP]; exact hd)
    have hens : ensureFolderPath v (folderPathOf (normalizePath (jsTrim rawPath))) =
        (.ok (), ⟨v.entries ++ (accSegPaths "" (s :: rest)).map
          fun d => (d, VaultEntry.folder)⟩,
         [] ++ accSegPaths "" (s :: rest)) := by
      rw [ensureFolderPath.eq_def, hsegs]
      exact ensureFolderGo_all_absent (s :: rest) v [] "" helems habs2
    have hnotmem : normalizePath (jsTrim rawPath) ∉ accSegPaths "" (s :: rest) := by
      intro hmem
      have := folderPrefixes_lt (jsTrim rawPath) hne_ps
        (normalizePath (jsTrim rawPath)) (by rw [hP]; exact hmem)
      omega
    have hlookF : ((accSegPaths "" (s :: rest)).map
        fun d => (d, VaultEntry.folder)).lookup (normalizePath (jsTrim rawPath)) =
        none := lookup_folders_none _ _ hnotmem
    have hvFlook : (⟨v.entries ++ (accSegPaths "" (s :: rest)).map
        fun d => (d, VaultEntry.folder)⟩ : Vault).lookup
          (normalizePath (jsTrim rawPath)) = none := by
      show (v.entries ++ _).lookup _ = none
      rw [lookup_append, habsL]
      exact hlookF
    have hcr : (⟨v.entries ++ (accSegPaths "" (s :: rest)).map
        fun d => (d, VaultEntry.folder)⟩ : Vault).create
        (normalizePath (jsTrim rawPath)) (noteContent (jsTrim heading) body) now =
        .ok ⟨(v.entries ++ (accSegPaths "" (s :: rest)).map
          fun d => (d, VaultEntry.folder)) ++ [(normalizePath (jsTrim rawPath),
          .file (noteContent (jsTrim heading) body) now)]⟩ := by
      rw [Vault.create, hvFlook]
    have hred := rpcNoteCreate_reduce rawPath heading body v now hpath hhead hmd
      hnotfile (.ok (), ⟨v.entries ++ (accSegPaths "" (s :: rest)).map
        fun d => (d, VaultEntry.folder)⟩, [] ++ accSegPaths "" (s :: rest))
      (by rw [if_neg hfp_ne, hens])
    simp only [hcr] at hred
    rw [hP]
    refine ⟨by rw [hred]; simp, by rw [hred], ?_, ?_, ?_, ?_⟩
    · rw [hred]
      show (Vault.mk _).lookup _ = _
      rw [Vault.lookup, lookup_append, lookup_append, habsL, hlookF,
        lookup_singleton, if_pos rfl, hcontent]
    · intro d hd
      rw [hred]
      show (Vault.mk _).lookup _ = _
      rw [Vault.lookup, lookup_append, lookup_append,
        show List.lookup d v.entries = none from hdirs d (by rw [hP]; exact hd),
        lookup_folders_mem _ _ hd]
    · rw [hred]
      show (rpcNoteCreate (some rawPath) (some heading) (some body)
        (⟨(v.entries ++ (accSegPaths "" (s :: rest)).map
          fun d => (d, VaultEntry.folder)) ++ [(normalizePath (jsTrim rawPath),
          VaultEntry.file (noteContent (jsTrim heading) body) now)]⟩ : Vault) now2).1 = _
      rw [rpcNoteCreate_exists rawPath heading body _ now2 hpath hhead hmd
        (noteContent (jsTrim heading) body) now (by
          show ((v.entries ++ (accSegPaths "" (s :: rest)).map
            fun d => (d, VaultEntry.folder)) ++ [(normalizePath (jsTrim rawPath),
            VaultEntry.file (noteContent (jsTrim heading) body) now)]).lookup
            (normalizePath (jsTrim rawPath)) = _
          rw [lookup_append, lookup_append, habsL, hlookF,
            lookup_singleton, if_pos rfl])]
    · intro v' hconf
      rcases hconf with ⟨d, hdmem, c, m, hdfile⟩
      have herr := ensureFolderGo_error (s :: rest) v' [] ""
        ⟨d, hdmem, c, m, hdfile⟩
      rcases herr with ⟨e, he⟩
      cases hvp : v'.lookup (normalizePath (jsTrim rawPath)) with
      | some entry =>
        cases entry with
        | file c2 m2 =>
          rw [rpcNoteCreate_exists rawPath heading body v' now hpath hhead hmd
            c2 m2 hvp]
          exact ⟨⟨_, rfl⟩, fun c3 m3 h3 => by rw [← hvp]; exact h3⟩
        | folder =>
          have hnf : ∀ c3 m3, v'.lookup (normalizePath (jsTrim rawPath)) ≠
              some (.file c3 m3) := by
            intro c3 m3 h3
            rw [hvp] at h3
            cases h3
          have hred2 := rpcNoteCreate_reduce rawPath heading body v' now
            hpath hhead hmd hnf (ensureFolderGo v' [] "" (s :: rest))
            (by
              rw [if_neg hfp_ne]
              show ensureFolderGo v' [] "" (s :: rest) =
                ensureFolderGo v' [] ""
                  ((jsSplit '/' (folderPathOf (normalizePath
                    (jsTrim rawPath)))).filter (· ≠ ""))
              rw [hsegs])
          rw [he] at hred2
          refine ⟨⟨e, by rw [hred2]⟩, ?_⟩
          intro c3 m3 h3
          have h3x : (ensureFolderGo v' [] "" (s :: rest)).2.1.lookup
              (normalizePath (jsTrim rawPath)) = some (.file c3 m3) := by
            rw [hred2] at h3
            exact h3
          rcases ensureFolderGo_lookup (s :: rest) v' [] ""
            (normalizePath (jsTrim rawPath)) with hl | hl
          · rw [hl, hvp] at h3x
            cases h3x
          · rw [hl] at h3x
            cases h3x
      | none =>
        have hnf : ∀ c3 m3, v'.lookup (normalizePath (jsTrim rawPath)) ≠
            some (.file c3 m3) := by
          intro c3 m3 h3
          rw [hvp] at h3
          cases h3
        have hred2 := rpcNoteCreate_reduce rawPath heading body v' now
          hpath hhead hmd hnf (ensureFolderGo v' [] "" (s :: rest))
          (by
            rw [if_neg hfp_ne]
            show ensureFolderGo v' [] "" (s :: rest) =
              ensureFolderGo v' [] ""
                ((jsSplit '/' (folderPathOf (normalizePath
                  (jsTrim rawPath)))).filter (· ≠ ""))
            rw [hsegs])
        rw [he] at hred2
        refine ⟨⟨e, by rw [hred2]⟩, ?_⟩
        intro c3 m3 h3
        have h3x : (ensureFolderGo v' [] "" (s :: rest)).2.1.lookup
            (normalizePath (jsTrim rawPath)) = some (.file c3 m3) := by
          rw [hred2] at h3
          exact h3
        rcases ensureFolderGo_lookup (s :: rest) v' [] ""
          (normalizePath (jsTrim rawPath)) with hl | hl
        · rw [hl, hvp] at h3x
          cases h3x
        · rw [hl] at h3x
          cases h3x

/-- C2 counterexample: the created content starts with the *trimmed*
heading and the body with trailing whitespace removed, so for a
heading `"H "` and a body `"text "` it does not begin with
`"# " ++ heading ++ "\n\n" ++ body` as the claim, read literally,
states. -/
theorem noteCreate_spec_counterexample :
    (rpcNoteCreate (some "a/b/c.md") (some "H ") (some "text ") ⟨[]⟩ 0).2.1.lookup
        "a/b/c.md" = some (.file "# H\n\ntext\n" 0)
    ∧ strStartsWith "# H\n\ntext\n" ("# " ++ "H " ++ "\n\n" ++ "text ") = false :=
  ⟨rfl, rfl⟩

/-- C2 witness: creating `a/b/c.md` in an empty vault makes folders
`a` and `a/b` and then the file, in that order. -/
theorem noteCreate_spec_witness :
    (rpcNoteCreate (some "a/b/c.md") (some "H") (some "text") ⟨[]⟩ 5).2.2 =
        folderPrefixes (normalizePath (jsTrim "a/b/c.md")) ++
          [normalizePath (jsTrim "a/b/c.md")]
    ∧ (rpcNoteCreate (some "a/b/c.md") (some "H") (some "text") ⟨[]⟩ 5).1 =
        .ok { path := normalizePath (jsTrim "a/b/c.md"),
              title := basename (normalizePath (jsTrim "a/b/c.md")),
              mtime := 5, created := true }
    ∧ (rpcNoteCreate (some "a/b/c.md") (some "H") (some "text") ⟨[]⟩ 5).2.1.lookup
          (normalizePath (jsTrim "a/b/c.md")) =
        some (.file ("# " ++ jsTrim "H" ++ "\n\n" ++ jsTrimEnd "text" ++ "\n") 5)
    ∧ (∀ d ∈ folderPrefixes (normalizePath (jsTrim "a/b/c.md")),
        (rpcNoteCreate (some "a/b/c.md") (some "H") (some "text") ⟨[]⟩ 5).2.1.lookup d =
          some VaultEntry.folder)
    ∧ (rpcNoteCreate (some "a/b/c.md") (some "H") (some "text")
          (rpcNoteCreate (some "a/b/c.md") (some "H") (some "text") ⟨[]⟩ 5).2.1 7).1 =
        .error ("File already exists: " ++ normalizePath (jsTrim "a/b/c.md"))
    ∧ (∀ v' : Vault,
        (∃ d ∈ folderPrefixes (normalizePath (jsTrim "a/b/c.md")),
          ∃ c m, v'.lookup d = some (.file c m)) →
        (∃ e, (rpcNoteCreate (some "a/b/c.md") (some "H") (some "text") v' 5).1 =
          .error e)
        ∧ (∀ c m,
            (rpcNoteCreate (some "a/b/c.md") (some "H") (some "text") v' 5).2.1.lookup
              (normalizePath (jsTrim "a/b/c.md")) = some (.file c m) →
            v'.lookup (normalizePath (jsTrim "a/b/c.md")) = some (.file c m))) :=
  noteCreate_spec "a/b/c.md" "H" "text" ⟨[]⟩ 5 7 (by decide) (by decide) (by decide)
    rfl (by decide)
